import Mathlib

/-!
# Index script generator (`tests_dw/ee/indexes/index_script_gen.go`)

A shallow embedding of the generator of index test scripts, followed by the
properties of its generation pipeline.

Conventions of the embedding.

* The process-wide pseudorandom source is an explicit state `Rand`: an arbitrary
  stream of raw draws together with the number of draws consumed so far.  Every
  call of `rand.Int`, `rand.Int63` or `rand.Intn` consumes exactly one draw and
  reduces it into the range the library documents.
* Go's `int` is taken to be 64 bits wide; products are wrapped explicitly.
* A Go `panic` is the `error` case of `Except String`.
* Standard output is the `String` a function returns.
* A Go `map[string][]string` is an association list with pairwise distinct
  keys; the order in which a `range` statement visits it is a parameter.
-/

namespace IndexScriptGen

/-! ## Library model: `rand`, `fmt`, `strings` -/

/-- Pseudorandom source: the stream of raw draws and the number consumed. -/
structure Rand where
  seq : Nat → Nat
  pos : Nat

/-- The source after one more draw has been consumed. -/
def Rand.advance (r : Rand) : Rand := { seq := r.seq, pos := r.pos + 1 }

/-- Go `rand.Int()`: a non-negative `int` (below `2^63`). -/
def randInt (r : Rand) : Nat × Rand := (r.seq r.pos % 2 ^ 63, r.advance)

/-- Go `rand.Int63()`: a non-negative `int64`. -/
def randInt63 (r : Rand) : Nat × Rand := (r.seq r.pos % 2 ^ 63, r.advance)

/-- Go `rand.Intn(n)` for a positive constant `n`: a value in `[0, n)`. -/
def randIntn (n : Nat) (r : Rand) : Nat × Rand := (r.seq r.pos % n, r.advance)

/-- Two's complement wrap-around of a 64-bit signed product. -/
def wrapInt (x : Int) : Int := (x + 2 ^ 63) % 2 ^ 64 - 2 ^ 63

/-- Go `strings.Join(a, sep)`. -/
def stringsJoin (a : List String) (sep : String) : String := sep.intercalate a

/-- Characters written by `fmt.Printf(format)` when no operand is passed: text is
copied, `%%` is a percent sign, a verb without operand is reported as missing
and a trailing `%` as having no verb (flags and widths are not modelled). -/
def printfChars : List Char → List Char
  | [] => []
  | c :: rest =>
    if c = '%' then
      match rest with
      | [] => "%!(NOVERB)".data
      | v :: rest2 =>
        if v = '%' then '%' :: printfChars rest2
        else "%!".data ++ v :: "(MISSING)".data ++ printfChars rest2
    else c :: printfChars rest

/-- Go `fmt.Printf(format)` without operands: the text written. -/
def Printf (format : String) : String := ⟨printfChars format.data⟩

/-- Go `fmt.Println(s)`: the text written. -/
def Println (s : String) : String := s ++ "\n"

/-- Go `fmt.Sprint(v)` of an integer: its decimal representation. -/
def Sprint (v : Int) : String := toString v

/-! ## Type tables -/

/-- Types known to the test tool that are valid index column types. -/
def voltIdxTypes : List String :=
  ["int", "bint", "sint", "tint", "dec", "str4", "str128"]

/-- The integer subset of the index column types. -/
def voltIdxIntTypes : List String := ["int", "bint", "sint", "tint"]

/-- Maximum number of indexed columns. -/
def maxIdxColumns : Nat := 50

/-! ## Values -/

/-- The implementations of the interface `NValue`. -/
inductive NValue where
  | IntValue
  | BintValue
  | SintValue
  | TintValue
  | DecValue
  | StrValue (size : Int)
  deriving DecidableEq, Repr

/-- Function `sign`: `1` when the draw is even, `-1` otherwise. -/
def sign (r : Rand) : Int × Rand :=
  let (d, r1) := randInt r
  let sign := d % 2
  if sign = 0 then (1, r1) else (-1, r1)

/-- Method `IntValue.Create`. -/
def IntValue.Create (r : Rand) : String × Rand :=
  let (d, r1) := randInt r
  let (s, r2) := sign r1
  let val := wrapInt ((d : Int) * s)
  (Sprint val, r2)

/-- Method `BintValue.Create`. -/
def BintValue.Create (r : Rand) : String × Rand :=
  let (d, r1) := randInt63 r
  let (s, r2) := sign r1
  let val := wrapInt ((d : Int) * s)
  (Sprint val, r2)

/-- Method `SintValue.Create`: the sign draw is taken only for a nonzero
magnitude (short-circuit `&&`). -/
def SintValue.Create (r : Rand) : String × Rand :=
  let (val, r1) := randIntn 0x7FFF r
  if val ≠ 0 then
    let (s, r2) := randIntn 10 r1
    let signstr := if s < 5 then "-" else ""
    (signstr ++ toString val, r2)
  else
    ("" ++ toString val, r1)

/-- Method `TintValue.Create`. -/
def TintValue.Create (r : Rand) : String × Rand :=
  let (val, r1) := randIntn 0x7F r
  if val ≠ 0 then
    let (s, r2) := randIntn 10 r1
    let signstr := if s < 5 then "-" else ""
    (signstr ++ toString val, r2)
  else
    ("" ++ toString val, r1)

/-- Method `DecValue.Create`. -/
def DecValue.Create (r : Rand) : String × Rand :=
  let (d, r1) := randInt r
  let (s, r2) := sign r1
  let lhs := wrapInt ((d : Int) * s)
  let (f, r3) := randIntn 99999999 r2
  (stringsJoin [Sprint lhs, ".", Sprint (f : Int)] "", r3)

/-- Dictionary of `StrValue{128}`. -/
def substrs128 : List String :=
  ["ning", "izzy", "ariel", "nick", "mazur", "ryan", "hugg", "yankeesfan", "volt",
   "runs", "with", "scissors", "blue", "awesome", "weak", "sauce", "chicken",
   "strength", "vikram", "bobbi", "jarr", "bungee", "banjo", "arrow", "trinity",
   "coffee", "pvc"]

/-- Alphabet of `StrValue{4}`. -/
def substrs4 : List String := ["a", "b", "c", "d"]

/-- The loop `for i := 0; i < cnt; i++ { vals[i] = substrs[rand.Int()%len(substrs)] }`,
with `n` iterations left, started at index `i`. -/
def StrValue.fill (substrs : List String) :
    Nat → Nat → List String → Rand → Except String (List String × Rand)
  | 0, _, vals, r => .ok (vals, r)
  | n + 1, i, vals, r =>
    let (d, r1) := randInt r
    match substrs[d % substrs.length]? with
    | none => .error "index out of range"
    | some w => StrValue.fill substrs n (i + 1) (vals.set i w) r1

/-- Method `StrValue.Create`. -/
def StrValue.Create (size : Int) (r : Rand) : Except String (String × Rand) :=
  if size = 128 then
    let (d, r1) := randInt r
    let cnt := d % 10 + 1
    match StrValue.fill substrs128 cnt 0 (List.replicate cnt "") r1 with
    | .error e => .error e
    | .ok (vals, r2) => .ok (stringsJoin vals "", r2)
  else if size = 4 then
    let cnt := 4
    match StrValue.fill substrs4 cnt 0 (List.replicate cnt "") r with
    | .error e => .error e
    | .ok (vals, r2) => .ok (stringsJoin vals "", r2)
  else .error "Invalid string size."

/-- Method `Create` of the interface. -/
def NValue.Create : NValue → Rand → Except String (String × Rand)
  | .IntValue, r => .ok (IntValue.Create r)
  | .BintValue, r => .ok (BintValue.Create r)
  | .SintValue, r => .ok (SintValue.Create r)
  | .TintValue, r => .ok (TintValue.Create r)
  | .DecValue, r => .ok (DecValue.Create r)
  | .StrValue size, r => StrValue.Create size r

/-- Method `Abbrev` of the interface. -/
def NValue.Abbrev : NValue → String
  | .IntValue => "int"
  | .BintValue => "bint"
  | .SintValue => "sint"
  | .TintValue => "tint"
  | .DecValue => "dec"
  | .StrValue size => "str" ++ toString size

/-! ## Utility functions -/

/-- Function `nvalueFactory`. -/
def nvalueFactory (token : String) : Except String NValue :=
  if token = "int" then .ok .IntValue
  else if token = "bint" then .ok .BintValue
  else if token = "sint" then .ok .SintValue
  else if token = "tint" then .ok .TintValue
  else if token = "dec" then .ok .DecValue
  else if token = "str4" then .ok (.StrValue 4)
  else if token = "str128" then .ok (.StrValue 128)
  else .error token

/-- The loop of `printSliceAsList` from index `i` on, `len` being the length of
the whole slice. -/
def printSliceFrom (len : Nat) : Nat → List String → String
  | _, [] => ""
  | i, s :: rest =>
    Printf s ++ (if i = len - 1 then Printf "\n" else Printf ",")
      ++ printSliceFrom len (i + 1) rest

/-- Function `printSliceAsList`: the text written. -/
def printSliceAsList (slice : List String) : String :=
  printSliceFrom slice.length 0 slice

/-- The loop shared by `createSchema` and `createIntsOnlySchema`, over the type
table `types`, with `n` iterations left, started at index `ii`. -/
def schemaLoop (types : List String) :
    Nat → Nat → List NValue → List String → Rand →
      Except String ((List NValue × List String) × Rand)
  | 0, _, schema, abbrevs, r => .ok ((schema, abbrevs), r)
  | n + 1, ii, schema, abbrevs, r =>
    let (d, r1) := randInt r
    match types[d % types.length]? with
    | none => .error "index out of range"
    | some schemaType =>
      match nvalueFactory schemaType with
      | .error e => .error e
      | .ok nv =>
        schemaLoop types n (ii + 1) (schema.set ii nv) (abbrevs.set ii schemaType) r1

/-- Function `createSchema`. -/
def createSchema (r : Rand) : Except String ((List NValue × List String) × Rand) :=
  let (d, r1) := randInt r
  let len := d % maxIdxColumns + 1
  schemaLoop voltIdxTypes len 0 (List.replicate len .IntValue) (List.replicate len "") r1

/-- Function `createIntsOnlySchema`. -/
def createIntsOnlySchema (r : Rand) :
    Except String ((List NValue × List String) × Rand) :=
  let (d, r1) := randInt r
  let len := d % 4 + 1
  schemaLoop voltIdxIntTypes len 0 (List.replicate len .IntValue) (List.replicate len "") r1

/-- The loop of `createTuple`, with `n` iterations left, started at index `ii`. -/
def createTupleLoop (schema : List NValue) :
    Nat → Nat → List String → Rand → Except String (List String × Rand)
  | 0, _, tuple, r => .ok (tuple, r)
  | n + 1, ii, tuple, r =>
    match schema[ii]? with
    | none => .error "index out of range"
    | some nv =>
      match nv.Create r with
      | .error e => .error e
      | .ok (lit, r1) => createTupleLoop schema n (ii + 1) (tuple.set ii lit) r1

/-- Function `createTuple`. -/
def createTuple (schema : List NValue) (r : Rand) : Except String (List String × Rand) :=
  createTupleLoop schema schema.length 0 (List.replicate schema.length "") r

/-- The loop of `tupleKey`, with `n` iterations left, at schema index `si` and
part index `pi`. -/
def tupleKeyLoop (schema : List NValue) (tuple : List String) :
    Nat → Nat → Nat → List String → Except String (List String)
  | 0, _, _, parts => .ok parts
  | n + 1, si, pi, parts =>
    match schema[si]?, tuple[si]? with
    | some nv, some lit =>
      tupleKeyLoop schema tuple n (si + 1) (pi + 2) ((parts.set pi nv.Abbrev).set (pi + 1) lit)
    | _, _ => .error "index out of range"

/-- Function `tupleKey`: a serialization of a tuple under a schema. -/
def tupleKey (schema : List NValue) (tuple : List String) : Except String String :=
  match tupleKeyLoop schema tuple schema.length 0 0 (List.replicate (schema.length * 2) "") with
  | .error e => .error e
  | .ok parts => .ok (stringsJoin parts ":")

/-! ## The tuple map -/

/-- A `map[string][]string`: entries with pairwise distinct keys. -/
abbrev TupleMap := List (String × List String)

/-- The assignment `tuples[key] = tuple`: an entry under `key` is replaced. -/
def TupleMap.assign (tuples : TupleMap) (key : String) (tuple : List String) : TupleMap :=
  tuples.filter (fun e => e.1 ≠ key) ++ [(key, tuple)]

/-! ## Generators -/

/-- The first loop of `simpleUniqueGenerator`, with `n` iterations left: create
tuples and push them into the map to uniqify them. -/
def insertLoop (schema : List NValue) :
    Nat → TupleMap → Rand → Except String (TupleMap × Rand)
  | 0, tuples, r => .ok (tuples, r)
  | n + 1, tuples, r =>
    match createTuple schema r with
    | .error e => .error e
    | .ok (tuple, r1) =>
      match tupleKey schema tuple with
      | .error e => .error e
      | .ok tuplekey => insertLoop schema n (tuples.assign tuplekey tuple) r1

/-- One command loop `for _, v := range tuples { fmt.Printf(cmd); printSliceAsList(v) }`
over the entries in the order the `range` statement visits them. -/
def rangePrint (cmd : String) : List (String × List String) → String
  | [] => ""
  | e :: rest => Printf cmd ++ printSliceAsList e.2 ++ rangePrint cmd rest

/-- Function `simpleUniqueGenerator`: the text written, the map and the random
source afterwards.  `order k` is the order in which the `k`-th `range` statement
visits the map. -/
def simpleUniqueGenerator (tuples : TupleMap) (schema : List NValue)
    (order : Nat → TupleMap → TupleMap) (r : Rand) :
    Except String (String × TupleMap × Rand) :=
  match insertLoop schema 10 tuples r with
  | .error e => .error e
  | .ok (tuples, r1) =>
    .ok (rangePrint "is " (order 0 tuples)
      ++ rangePrint "ls " (order 1 tuples)
      ++ rangePrint "if " (order 2 tuples)
      ++ rangePrint "ds " (order 3 tuples)
      ++ rangePrint "df " (order 4 tuples)
      ++ rangePrint "lf " (order 5 tuples)
      ++ Println "exec", tuples, r1)

/-- Function `generateUniqueGenericTree`: the text written. -/
def generateUniqueGenericTree (testrun : Int) (order : Nat → TupleMap → TupleMap)
    (r : Rand) : Except String (String × Rand) :=
  match createSchema r with
  | .error e => .error e
  | .ok ((schema, abbrevs), r1) =>
    let intro := "begin TestUniqueGenericTree_" ++ toString testrun ++ " UniqueGenericTree "
      ++ printSliceAsList abbrevs
    match simpleUniqueGenerator [] schema order r1 with
    | .error e => .error e
    | .ok (out, _, r2) => .ok (intro ++ out, r2)

/-- Function `generateUniqueIntsHash`: the text written. -/
def generateUniqueIntsHash (testrun : Int) (order : Nat → TupleMap → TupleMap)
    (r : Rand) : Except String (String × Rand) :=
  match createIntsOnlySchema r with
  | .error e => .error e
  | .ok ((schema, abbrevs), r1) =>
    let intro := "begin TestUniqueIntsHash_" ++ toString testrun ++ " UniqueIntsHash "
      ++ printSliceAsList abbrevs
    match simpleUniqueGenerator [] schema order r1 with
    | .error e => .error e
    | .ok (out, _, r2) => .ok (intro ++ out, r2)

/-! ## Specification-side definitions -/

/-- Parts of a canonical key: the token and the literal of each column. -/
def keyParts : List NValue → List String → List String
  | nv :: schema, lit :: tuple => nv.Abbrev :: lit :: keyParts schema tuple
  | _, _ => []

/-- A value type whose `Create` does not abort: a `StrValue` has size 4 or 128. -/
def NValue.WellFormed : NValue → Prop
  | .StrValue size => size = 4 ∨ size = 128
  | _ => True

instance (nv : NValue) : Decidable nv.WellFormed := by
  cases nv <;> unfold NValue.WellFormed <;> infer_instance

/-- The literals of the columns of a schema, created from left to right with
the random source threaded through. -/
def createColumns : List NValue → Rand → Except String (List String × Rand)
  | [], r => .ok ([], r)
  | nv :: rest, r =>
    match nv.Create r with
    | .error e => .error e
    | .ok (lit, r1) =>
      match createColumns rest r1 with
      | .error e => .error e
      | .ok (lits, r2) => .ok (lit :: lits, r2)

/-- Characters a generated literal is made of: decimal digits, lower-case
letters, the minus sign and the decimal point. -/
def plainChar (c : Char) : Bool := c.isDigit || c.isLower || c == '-' || c == '.'

deriving instance DecidableEq for Except

/-- The canonical key of a tuple of the schema's arity, as a plain string. -/
def keyOf (schema : List NValue) (tuple : List String) : String :=
  ":".intercalate (keyParts schema tuple)

/-- The candidate tuples of a block: `n` tuples created one after the other. -/
def candidateTuples (schema : List NValue) :
    Nat → Rand → Except String (List (List String) × Rand)
  | 0, r => .ok ([], r)
  | n + 1, r =>
    match createTuple schema r with
    | .error e => .error e
    | .ok (tuple, r1) =>
      match candidateTuples schema n r1 with
      | .error e => .error e
      | .ok (tuples, r2) => .ok (tuple :: tuples, r2)

/-- The map after the candidates have been assigned to it in order. -/
def assignAll (schema : List NValue) (tuples : TupleMap) (cands : List (List String)) :
    TupleMap :=
  cands.foldl (fun acc t => acc.assign (keyOf schema t) t) tuples

/-- The value list of each entry: its literals joined with commas. -/
def valueLists (entries : TupleMap) : List String :=
  entries.map fun e => ",".intercalate e.2

/-- The lines of a block body: six command groups in the fixed order, then
the terminator. -/
def blockLines (g1 g2 g3 g4 g5 g6 : List String) : List String :=
  g1.map ("is " ++ ·) ++ g2.map ("ls " ++ ·) ++ g3.map ("if " ++ ·)
    ++ g4.map ("ds " ++ ·) ++ g5.map ("df " ++ ·) ++ g6.map ("lf " ++ ·) ++ ["exec"]

/-- The text made of the given lines, each terminated by a newline. -/
def renderLines (lines : List String) : String :=
  String.join (lines.map (· ++ "\n"))

/-- Number of newline-terminated lines of a text. -/
def lineCount (out : String) : Nat := out.data.count '\n'

/-- A text is a block body: six groups of command lines in the order
`is`, `ls`, `if`, `ds`, `df`, `lf`, then the single line `exec`, nothing after. -/
def BlockShape (out : String) : Prop :=
  ∃ g1 g2 g3 g4 g5 g6 : List String,
    (∀ v ∈ g1 ++ g2 ++ g3 ++ g4 ++ g5 ++ g6, '\n' ∉ v.data)
      ∧ out = renderLines (blockLines g1 g2 g3 g4 g5 g6)

/-- Draws of the scenario of C5: a two-column schema `sint`, `tint`, then five
times the tuples `5,-3` and `-100,20`. -/
def scenarioDraws : List Nat :=
  [1, 2, 3,
   5, 7, 3, 0, 100, 0, 20, 9, 5, 7, 3, 0, 100, 0, 20, 9,
   5, 7, 3, 0, 100, 0, 20, 9, 5, 7, 3, 0, 100, 0, 20, 9,
   5, 7, 3, 0, 100, 0, 20, 9]

/-- The random source that produces `scenarioDraws`, then zeros. -/
def scenarioRand (pos : Nat) : Rand := ⟨fun i => scenarioDraws.getD i 0, pos⟩

/-- Index of a letter in the alphabet of `StrValue{4}` (3 for any other character). -/
def letterIndex (c : Char) : Nat :=
  if c = 'a' then 0 else if c = 'b' then 1 else if c = 'c' then 2 else 3

/-- A text matches the pattern `-?\d+\.\d{1,8}` in full: an optional minus sign,
at least one digit, a dot, then between one and eight digits. -/
def MatchesDecimal (s : String) : Prop :=
  ∃ sign ip fp : List Char, s.data = sign ++ ip ++ '.' :: fp
    ∧ (sign = [] ∨ sign = ['-'])
    ∧ ip ≠ [] ∧ (∀ c ∈ ip, c.isDigit = true)
    ∧ 1 ≤ fp.length ∧ fp.length ≤ 8 ∧ (∀ c ∈ fp, c.isDigit = true)

/-- Canonical decimal representation of an integer: `0` alone, or an optional
minus sign followed by digits the first of which is not `0`. -/
def CanonicalDecimal (cs : List Char) : Prop :=
  cs = ['0'] ∨ ∃ (sign : List Char) (d : Char) (ds : List Char), cs = sign ++ d :: ds
    ∧ (sign = [] ∨ sign = ['-'])
    ∧ d.isDigit = true ∧ d ≠ '0' ∧ ∀ c ∈ ds, c.isDigit = true

/-- The four integer value types. -/
def NValue.IsInteger : NValue → Prop
  | .IntValue => True
  | .BintValue => True
  | .SintValue => True
  | .TintValue => True
  | _ => False

/-- Value of a string of decimal digits. -/
def digitsValue (cs : List Char) : Nat :=
  cs.foldl (fun a c => a * 10 + (c.toNat - '0'.toNat)) 0

/-- The rational number denoted by a decimal literal: an optional minus sign,
the digits of the integer part, a dot and the digits of the fraction. -/
def decimalValue (s : String) : ℚ :=
  let neg : Bool := s.data.head? == some '-'
  let body := if neg then s.data.tail else s.data
  let ip := body.takeWhile (fun c => c != '.')
  let fp := (body.dropWhile (fun c => c != '.')).tail
  let mag : ℚ := (digitsValue ip : ℚ) + (digitsValue fp : ℚ) / (10 : ℚ) ^ fp.length
  if neg then -mag else mag

/-- Draws of two decimal columns with the same value: integer part 1, positive
sign, and the fractions 5 and 50 in turn. -/
def decimalDraws (i : Nat) : Nat :=
  if i % 3 = 0 then 1 else if i % 3 = 1 then 0 else if i / 3 % 2 = 0 then 5 else 50

/-! ## Auxiliary facts on lists and strings -/

theorem take_succ_set {α : Type} (l : List α) (i : Nat) (a : α) (h : i < l.length) :
    (l.set i a).take (i + 1) = l.take i ++ [a] := by
  induction l generalizing i with
  | nil => simp at h
  | cons x xs ih =>
    cases i with
    | zero => simp
    | succ j =>
      have hj : j < xs.length := by simpa using h
      simp [List.set, ih j hj]

theorem take_set_same {α : Type} (l : List α) (i : Nat) (a : α) :
    (l.set i a).take i = l.take i := by
  induction l generalizing i with
  | nil => simp
  | cons x xs ih =>
    cases i with
    | zero => simp
    | succ j => simp [List.set, ih j]

theorem intercalate_go_data (sep : String) (l : List String) (acc : String) :
    (String.intercalate.go acc sep l).data
      = acc.data ++ (l.map (fun a => sep.data ++ a.data)).flatten := by
  induction l generalizing acc with
  | nil => simp [String.intercalate.go]
  | cons a rest ih => simp [String.intercalate.go, ih, List.append_assoc]

theorem intercalate_cons_cons (sep a b : String) (l : List String) :
    sep.intercalate (a :: b :: l) = a ++ sep ++ sep.intercalate (b :: l) := by
  apply String.ext
  simp [String.intercalate, intercalate_go_data, List.append_assoc]

theorem intercalate_singleton (sep a : String) : sep.intercalate [a] = a := by
  simp [String.intercalate, String.intercalate.go]

theorem tupleKeyLoop_eq (schema : List NValue) (tuple : List String) :
    ∀ (n si pi : Nat) (parts : List String),
      si + n = schema.length → schema.length ≤ tuple.length →
      parts.length = pi + 2 * n →
      tupleKeyLoop schema tuple n si pi parts
        = .ok (parts.take pi ++ keyParts (schema.drop si) (tuple.drop si)) := by
  intro n
  induction n with
  | zero =>
    intro si pi parts hs _ hp
    have h1 : schema.drop si = [] := List.drop_eq_nil_of_le (by omega)
    have h2 : parts.take pi = parts := List.take_of_length_le (by omega)
    simp [tupleKeyLoop, h1, keyParts, h2]
  | succ n ih =>
    intro si pi parts hs ht hp
    have hsi : si < schema.length := by omega
    have hti : si < tuple.length := by omega
    have e1 : schema.drop si = schema[si] :: schema.drop (si + 1) := List.drop_eq_getElem_cons hsi
    have e2 : tuple.drop si = tuple[si] :: tuple.drop (si + 1) := List.drop_eq_getElem_cons hti
    simp only [tupleKeyLoop, List.getElem?_eq_getElem hsi, List.getElem?_eq_getElem hti]
    rw [ih (si + 1) (pi + 2) _ (by omega) ht (by simp; omega), e1, e2]
    simp only [keyParts]
    congr 1
    have h3 : ((parts.set pi schema[si].Abbrev).set (pi + 1) tuple[si]).take (pi + 1 + 1)
        = ((parts.set pi schema[si].Abbrev)).take (pi + 1) ++ [tuple[si]] :=
      take_succ_set _ _ _ (by simp; omega)
    rw [show pi + 2 = pi + 1 + 1 from rfl, h3, take_succ_set _ _ _ (by omega)]
    simp

theorem tupleKey_eq_keyParts (schema : List NValue) (tuple : List String)
    (h : schema.length ≤ tuple.length) :
    tupleKey schema tuple = .ok (":".intercalate (keyParts schema tuple)) := by
  unfold tupleKey
  rw [tupleKeyLoop_eq schema tuple schema.length 0 0 _ (by simp) h (by simp; omega)]
  simp [stringsJoin]

theorem keyParts_eq_zipWith (schema : List NValue) (tuple : List String) :
    keyParts schema tuple
      = (List.zipWith (fun nv lit => [nv.Abbrev, lit]) schema tuple).flatten := by
  induction schema generalizing tuple with
  | nil => simp [keyParts]
  | cons nv rest ih =>
    cases tuple with
    | nil => simp [keyParts]
    | cons lit t => simp [keyParts, ih]

/-! ## Printing -/

theorem printfChars_plain (cs : List Char) (h : ∀ c ∈ cs, c ≠ '%') : printfChars cs = cs := by
  induction cs with
  | nil => rfl
  | cons c rest ih =>
    have hc : c ≠ '%' := h c (by simp)
    have hr : ∀ d ∈ rest, d ≠ '%' := fun d hd => h d (by simp [hd])
    rw [printfChars.eq_def]
    simp only [if_neg hc, ih hr]

theorem Printf_plain (s : String) (h : ∀ c ∈ s.data, c ≠ '%') : Printf s = s := by
  apply String.ext
  simp [Printf, printfChars_plain s.data h]

theorem printSliceFrom_eq (len : Nat) (slice : List String) :
    ∀ i : Nat, slice ≠ [] → i + slice.length = len →
      (∀ s ∈ slice, ∀ c ∈ s.data, c ≠ '%') →
      printSliceFrom len i slice = ",".intercalate slice ++ "\n" := by
  induction slice with
  | nil => intro i h; exact absurd rfl h
  | cons s rest ih =>
    intro i _ hlen hp
    have hs : Printf s = s := Printf_plain s (hp s (by simp))
    cases rest with
    | nil =>
      have hi : i = len - 1 := by simp at hlen; omega
      have hn : Printf "\n" = "\n" := by decide
      simp [printSliceFrom, hs, hi, hn, intercalate_singleton]
    | cons t rest2 =>
      have hi : i ≠ len - 1 := by simp at hlen; omega
      have hc : Printf "," = "," := by decide
      have hr := ih (i + 1) (by simp) (by simp at hlen ⊢; omega)
        (fun u hu => hp u (by simp [hu]))
      rw [printSliceFrom, hr, hs, intercalate_cons_cons]
      simp [hi, hc, String.append_assoc]

theorem printSliceAsList_eq (slice : List String) (hne : slice ≠ [])
    (hp : ∀ s ∈ slice, ∀ c ∈ s.data, c ≠ '%') :
    printSliceAsList slice = ",".intercalate slice ++ "\n" :=
  printSliceFrom_eq slice.length slice 0 hne (by simp) hp

theorem rangePrint_eq (cmd : String) (hcmd : ∀ c ∈ cmd.data, c ≠ '%')
    (entries : List (String × List String))
    (h : ∀ e ∈ entries, e.2 ≠ [] ∧ ∀ s ∈ e.2, ∀ c ∈ s.data, c ≠ '%') :
    rangePrint cmd entries
      = String.join (entries.map fun e => cmd ++ ",".intercalate e.2 ++ "\n") := by
  induction entries with
  | nil => rfl
  | cons e rest ih =>
    have he := h e (by simp)
    rw [rangePrint, ih (fun x hx => h x (by simp [hx])), Printf_plain cmd hcmd,
      printSliceAsList_eq e.2 he.1 he.2]
    apply String.ext
    simp [String.join_eq, List.append_assoc]

theorem printSliceAsList_nil : printSliceAsList [] = "" := rfl

/-! ## Schemas and tuples -/

theorem nvalueFactory_wellFormed (t : String) (nv : NValue) (h : nvalueFactory t = .ok nv) :
    nv.WellFormed := by
  unfold nvalueFactory at h
  repeat' split at h
  all_goals first
    | (injection h with h; subst h; simp [NValue.WellFormed])
    | (exact absurd h (by simp))

theorem nvalueFactory_roundtrip :
    ∀ t ∈ voltIdxTypes, ∃ nv, nvalueFactory t = .ok nv ∧ nv.Abbrev = t := by
  intro t ht
  simp only [voltIdxTypes, List.mem_cons, List.mem_singleton, List.not_mem_nil, or_false] at ht
  rcases ht with h | h | h | h | h | h | h <;> subst h <;> exact ⟨_, rfl, rfl⟩

theorem nvalueFactory_roundtrip_int :
    ∀ t ∈ voltIdxIntTypes, ∃ nv, nvalueFactory t = .ok nv ∧ nv.Abbrev = t := by
  intro t ht
  simp only [voltIdxIntTypes, List.mem_cons, List.mem_singleton, List.not_mem_nil, or_false] at ht
  rcases ht with h | h | h | h <;> subst h <;> exact ⟨_, rfl, rfl⟩

theorem schemaLoop_spec (types : List String) (hne : types ≠ [])
    (hok : ∀ t ∈ types, ∃ nv, nvalueFactory t = .ok nv ∧ nv.Abbrev = t) :
    ∀ (n ii : Nat) (schema : List NValue) (abbrevs : List String) (r : Rand),
      schema.length = ii + n → abbrevs.length = ii + n →
      ∃ s a, schemaLoop types n ii schema abbrevs r
          = .ok ((schema.take ii ++ s, abbrevs.take ii ++ a), ⟨r.seq, r.pos + n⟩)
        ∧ s.length = n ∧ s.map NValue.Abbrev = a ∧ (∀ t ∈ a, t ∈ types)
        ∧ ∀ nv ∈ s, nv.WellFormed := by
  intro n
  induction n with
  | zero =>
    intro ii schema abbrevs r hs ha
    refine ⟨[], [], ?_, rfl, rfl, by simp, by simp⟩
    simp only [Nat.add_zero] at hs ha
    simp [schemaLoop, List.take_of_length_le (Nat.le_of_eq hs),
      List.take_of_length_le (Nat.le_of_eq ha)]
  | succ n ih =>
    intro ii schema abbrevs r hs ha
    have hpos : 0 < types.length := List.length_pos.mpr hne
    have hidx : r.seq r.pos % 2 ^ 63 % types.length < types.length := Nat.mod_lt _ hpos
    obtain ⟨nv, hnv, hab⟩ := hok _ (List.getElem_mem hidx)
    obtain ⟨s, a, hrun, hlen, hmap, hmem, hwf⟩ :=
      ih (ii + 1) (schema.set ii nv)
        (abbrevs.set ii (types[r.seq r.pos % 2 ^ 63 % types.length])) r.advance
        (by simp; omega) (by simp; omega)
    refine ⟨nv :: s, types[r.seq r.pos % 2 ^ 63 % types.length] :: a, ?_, by simp [hlen],
      by simp [hmap, hab], ?_, ?_⟩
    · simp only [schemaLoop, randInt, List.getElem?_eq_getElem hidx, hnv, hrun]
      rw [take_succ_set _ _ _ (by omega), take_succ_set _ _ _ (by omega)]
      simp [Rand.advance, Nat.add_assoc, Nat.add_comm 1 n]
    · intro t ht
      rcases List.mem_cons.mp ht with h | h
      · rw [h]; exact List.getElem_mem hidx
      · exact hmem t h
    · intro v hv
      rcases List.mem_cons.mp hv with h | h
      · rw [h]; exact nvalueFactory_wellFormed _ _ hnv
      · exact hwf v h

theorem createTupleLoop_eq (schema : List NValue) :
    ∀ (n ii : Nat) (tuple : List String) (r : Rand),
      ii + n = schema.length → tuple.length = schema.length →
      createTupleLoop schema n ii tuple r =
        match createColumns (schema.drop ii) r with
        | .error e => .error e
        | .ok (lits, r1) => .ok (tuple.take ii ++ lits, r1) := by
  intro n
  induction n with
  | zero =>
    intro ii tuple r hi ht
    have h1 : schema.drop ii = [] := List.drop_eq_nil_of_le (by omega)
    simp [createTupleLoop, h1, createColumns, List.take_of_length_le (show tuple.length ≤ ii by omega)]
  | succ n ih =>
    intro ii tuple r hi ht
    have hii : ii < schema.length := by omega
    rw [List.drop_eq_getElem_cons hii]
    simp only [createTupleLoop, List.getElem?_eq_getElem hii, createColumns]
    cases hc : schema[ii].Create r with
    | error e => rfl
    | ok p =>
      obtain ⟨lit, r1⟩ := p
      simp only []
      rw [ih (ii + 1) (tuple.set ii lit) r1 (by omega) (by simp [ht])]
      cases createColumns (schema.drop (ii + 1)) r1 with
      | error e => rfl
      | ok q =>
        obtain ⟨lits, r2⟩ := q
        simp only []
        rw [take_succ_set _ _ _ (by omega)]
        simp

theorem createTuple_eq (schema : List NValue) (r : Rand) :
    createTuple schema r = createColumns schema r := by
  unfold createTuple
  rw [createTupleLoop_eq schema schema.length 0 _ r (by simp) (by simp)]
  simp only [List.drop_zero, List.take_zero, List.nil_append]
  cases createColumns schema r with
  | error e => rfl
  | ok q => rfl

theorem createSchema_spec (r : Rand) :
    ∃ schema abbrevs, createSchema r
        = .ok ((schema, abbrevs), ⟨r.seq, r.pos + 1 + (r.seq r.pos % 2 ^ 63 % 50 + 1)⟩)
      ∧ schema.length = r.seq r.pos % 2 ^ 63 % 50 + 1
      ∧ schema.map NValue.Abbrev = abbrevs ∧ (∀ t ∈ abbrevs, t ∈ voltIdxTypes)
      ∧ ∀ nv ∈ schema, nv.WellFormed := by
  obtain ⟨s, a, hrun, hlen, hmap, hmem, hwf⟩ :=
    schemaLoop_spec voltIdxTypes (by simp [voltIdxTypes]) nvalueFactory_roundtrip
      (r.seq r.pos % 2 ^ 63 % 50 + 1) 0
      (List.replicate (r.seq r.pos % 2 ^ 63 % 50 + 1) .IntValue)
      (List.replicate (r.seq r.pos % 2 ^ 63 % 50 + 1) "") r.advance (by simp) (by simp)
  refine ⟨s, a, ?_, hlen, hmap, hmem, hwf⟩
  simp only [createSchema, randInt, maxIdxColumns, hrun]
  simp [Rand.advance]

theorem createIntsOnlySchema_spec (r : Rand) :
    ∃ schema abbrevs, createIntsOnlySchema r
        = .ok ((schema, abbrevs), ⟨r.seq, r.pos + 1 + (r.seq r.pos % 2 ^ 63 % 4 + 1)⟩)
      ∧ schema.length = r.seq r.pos % 2 ^ 63 % 4 + 1
      ∧ schema.map NValue.Abbrev = abbrevs ∧ (∀ t ∈ abbrevs, t ∈ voltIdxIntTypes)
      ∧ ∀ nv ∈ schema, nv.WellFormed := by
  obtain ⟨s, a, hrun, hlen, hmap, hmem, hwf⟩ :=
    schemaLoop_spec voltIdxIntTypes (by simp [voltIdxIntTypes]) nvalueFactory_roundtrip_int
      (r.seq r.pos % 2 ^ 63 % 4 + 1) 0
      (List.replicate (r.seq r.pos % 2 ^ 63 % 4 + 1) .IntValue)
      (List.replicate (r.seq r.pos % 2 ^ 63 % 4 + 1) "") r.advance (by simp) (by simp)
  refine ⟨s, a, ?_, hlen, hmap, hmem, hwf⟩
  simp only [createIntsOnlySchema, randInt, hrun]
  simp [Rand.advance]

/-! ## Canonical key (C4) -/

/-- C4: for a schema of `n` columns and a tuple of at least `n` literals,
`tupleKey` returns the strings `Abbrev(schema[0]), tuple[0], ...,
Abbrev(schema[n-1]), tuple[n-1]` joined with `":"`; for the empty schema it
returns the empty string.  The result is a function of `(schema, tuple)` alone. -/
theorem tupleKey_is_joined_pairs (schema : List NValue) (tuple : List String)
    (h : schema.length ≤ tuple.length) :
    tupleKey schema tuple
        = .ok (":".intercalate
            (List.zipWith (fun nv lit => [nv.Abbrev, lit]) schema tuple).flatten)
      ∧ tupleKey [] tuple = .ok "" := by
  constructor
  · rw [tupleKey_eq_keyParts schema tuple h, keyParts_eq_zipWith]
  · rfl

/-- Instance of C4: a `str4`/`int` schema and a tuple with one literal to spare. -/
theorem tupleKey_is_joined_pairs_witness :
    tupleKey [.StrValue 4, .IntValue] ["abcd", "-17", "x"] = .ok "str4:abcd:int:-17"
      ∧ tupleKey [] ["abcd", "-17", "x"] = .ok "" :=
  tupleKey_is_joined_pairs [.StrValue 4, .IntValue] ["abcd", "-17", "x"] (by decide)

/-! ## Schema builders (C7, C8) -/

/-- C7: for every sequence of draws `createSchema` returns a schema of length in
`[1,50]` whose tokens all belong to the seven index types, and
`createIntsOnlySchema` a schema of length in `[1,4]` whose tokens all belong to
the four integer types; every length of either range is reached by some draw. -/
theorem createSchema_length_and_tokens (r : Rand) :
    (∃ schema abbrevs r1, createSchema r = .ok ((schema, abbrevs), r1)
        ∧ 1 ≤ schema.length ∧ schema.length ≤ 50
        ∧ (∀ nv ∈ schema,
            nv.Abbrev ∈ ["int", "bint", "sint", "tint", "dec", "str4", "str128"])
        ∧ (∀ t ∈ abbrevs, t ∈ ["int", "bint", "sint", "tint", "dec", "str4", "str128"]))
      ∧ (∃ schema abbrevs r1, createIntsOnlySchema r = .ok ((schema, abbrevs), r1)
        ∧ 1 ≤ schema.length ∧ schema.length ≤ 4
        ∧ (∀ nv ∈ schema, nv.Abbrev ∈ ["int", "bint", "sint", "tint"])
        ∧ (∀ t ∈ abbrevs, t ∈ ["int", "bint", "sint", "tint"]))
      ∧ (∀ k : Fin 50, ∃ r0 schema abbrevs r1,
          createSchema r0 = .ok ((schema, abbrevs), r1) ∧ schema.length = k.val + 1)
      ∧ (∀ k : Fin 4, ∃ r0 schema abbrevs r1,
          createIntsOnlySchema r0 = .ok ((schema, abbrevs), r1)
            ∧ schema.length = k.val + 1) := by
  refine ⟨?_, ?_, ?_, ?_⟩
  · obtain ⟨s, a, hrun, hlen, hmap, hmem, -⟩ := createSchema_spec r
    refine ⟨s, a, _, hrun, by omega, by omega, ?_, hmem⟩
    intro nv hnv
    exact hmem _ (hmap ▸ List.mem_map_of_mem _ hnv)
  · obtain ⟨s, a, hrun, hlen, hmap, hmem, -⟩ := createIntsOnlySchema_spec r
    refine ⟨s, a, _, hrun, by omega, by omega, ?_, hmem⟩
    intro nv hnv
    exact hmem _ (hmap ▸ List.mem_map_of_mem _ hnv)
  · intro k
    obtain ⟨s, a, hrun, hlen, -⟩ := createSchema_spec ⟨fun _ => k.val, 0⟩
    refine ⟨_, s, a, _, hrun, ?_⟩
    rw [hlen]
    have := k.isLt
    simp only []
    omega
  · intro k
    obtain ⟨s, a, hrun, hlen, -⟩ := createIntsOnlySchema_spec ⟨fun _ => k.val, 0⟩
    refine ⟨_, s, a, _, hrun, ?_⟩
    rw [hlen]
    have := k.isLt
    simp only []
    omega

/-- Instance of C7 on the constant stream of draws 6. -/
theorem createSchema_length_and_tokens_witness :
    (∃ schema abbrevs r1, createSchema ⟨fun _ => 6, 0⟩ = .ok ((schema, abbrevs), r1)
        ∧ 1 ≤ schema.length ∧ schema.length ≤ 50
        ∧ (∀ nv ∈ schema,
            nv.Abbrev ∈ ["int", "bint", "sint", "tint", "dec", "str4", "str128"])
        ∧ (∀ t ∈ abbrevs, t ∈ ["int", "bint", "sint", "tint", "dec", "str4", "str128"]))
      ∧ (∃ schema abbrevs r1,
          createIntsOnlySchema ⟨fun _ => 6, 0⟩ = .ok ((schema, abbrevs), r1)
        ∧ 1 ≤ schema.length ∧ schema.length ≤ 4
        ∧ (∀ nv ∈ schema, nv.Abbrev ∈ ["int", "bint", "sint", "tint"])
        ∧ (∀ t ∈ abbrevs, t ∈ ["int", "bint", "sint", "tint"]))
      ∧ (∀ k : Fin 50, ∃ r0 schema abbrevs r1,
          createSchema r0 = .ok ((schema, abbrevs), r1) ∧ schema.length = k.val + 1)
      ∧ (∀ k : Fin 4, ∃ r0 schema abbrevs r1,
          createIntsOnlySchema r0 = .ok ((schema, abbrevs), r1)
            ∧ schema.length = k.val + 1) :=
  createSchema_length_and_tokens ⟨fun _ => 6, 0⟩

/-- C8: the token list returned by either schema builder is parallel to the
schema (same length, and `schema[i].Abbrev()` is `abbrev[i]` at every index);
`nvalueFactory(t).Abbrev()` is `t` for each of the seven tokens. -/
theorem schema_tokens_parallel (r : Rand) :
    (∃ schema abbrevs r1, createSchema r = .ok ((schema, abbrevs), r1)
        ∧ schema.length = abbrevs.length
        ∧ ∀ (i : Nat) (h1 : i < schema.length) (h2 : i < abbrevs.length),
            schema[i].Abbrev = abbrevs[i])
      ∧ (∃ schema abbrevs r1, createIntsOnlySchema r = .ok ((schema, abbrevs), r1)
        ∧ schema.length = abbrevs.length
        ∧ ∀ (i : Nat) (h1 : i < schema.length) (h2 : i < abbrevs.length),
            schema[i].Abbrev = abbrevs[i])
      ∧ ∀ t ∈ ["int", "bint", "sint", "tint", "dec", "str4", "str128"],
          ∃ nv, nvalueFactory t = .ok nv ∧ nv.Abbrev = t := by
  refine ⟨?_, ?_, nvalueFactory_roundtrip⟩
  · obtain ⟨s, a, hrun, -, hmap, -⟩ := createSchema_spec r
    subst hmap
    exact ⟨s, _, _, hrun, by simp, fun i h1 h2 => by simp⟩
  · obtain ⟨s, a, hrun, -, hmap, -⟩ := createIntsOnlySchema_spec r
    subst hmap
    exact ⟨s, _, _, hrun, by simp, fun i h1 h2 => by simp⟩

/-- Instance of C8 on the constant stream of draws 6. -/
theorem schema_tokens_parallel_witness :
    (∃ schema abbrevs r1, createSchema ⟨fun _ => 6, 0⟩ = .ok ((schema, abbrevs), r1)
        ∧ schema.length = abbrevs.length
        ∧ ∀ (i : Nat) (h1 : i < schema.length) (h2 : i < abbrevs.length),
            schema[i].Abbrev = abbrevs[i])
      ∧ (∃ schema abbrevs r1,
          createIntsOnlySchema ⟨fun _ => 6, 0⟩ = .ok ((schema, abbrevs), r1)
        ∧ schema.length = abbrevs.length
        ∧ ∀ (i : Nat) (h1 : i < schema.length) (h2 : i < abbrevs.length),
            schema[i].Abbrev = abbrevs[i])
      ∧ ∀ t ∈ ["int", "bint", "sint", "tint", "dec", "str4", "str128"],
          ∃ nv, nvalueFactory t = .ok nv ∧ nv.Abbrev = t :=
  schema_tokens_parallel ⟨fun _ => 6, 0⟩

/-! ## Decimal representations -/

theorem digitChar_isDigit (d : Nat) (h : d < 10) : (Nat.digitChar d).isDigit = true := by
  interval_cases d <;> decide

theorem digitChar_value (d : Nat) (h : d < 10) : (Nat.digitChar d).toNat - '0'.toNat = d := by
  interval_cases d <;> decide

theorem toDigitsCore_append (fuel n : Nat) (ds : List Char) :
    Nat.toDigitsCore 10 fuel n ds = Nat.toDigitsCore 10 fuel n [] ++ ds := by
  induction fuel generalizing n ds with
  | zero => simp [Nat.toDigitsCore]
  | succ fuel ih =>
    simp only [Nat.toDigitsCore]
    split
    · simp
    · rw [ih (n / 10) (Nat.digitChar (n % 10) :: ds), ih (n / 10) [Nat.digitChar (n % 10)]]
      simp

theorem toDigitsCore_isDigit (fuel n : Nat) :
    ∀ c ∈ Nat.toDigitsCore 10 fuel n [], c.isDigit = true := by
  induction fuel generalizing n with
  | zero => simp [Nat.toDigitsCore]
  | succ fuel ih =>
    intro c hc
    simp only [Nat.toDigitsCore] at hc
    have hd := digitChar_isDigit (n % 10) (Nat.mod_lt _ (by decide))
    split at hc
    · simp at hc; rw [hc]; exact hd
    · rw [toDigitsCore_append] at hc
      rcases List.mem_append.mp hc with h | h
      · exact ih _ c h
      · simp at h; rw [h]; exact hd

theorem toDigitsCore_ne_nil (fuel n : Nat) : Nat.toDigitsCore 10 (fuel + 1) n [] ≠ [] := by
  simp only [Nat.toDigitsCore]
  split
  · simp
  · rw [toDigitsCore_append]; simp

theorem toDigitsCore_value (fuel n : Nat) (h : n < fuel) :
    (Nat.toDigitsCore 10 fuel n []).foldl (fun a c => a * 10 + (c.toNat - '0'.toNat)) 0 = n := by
  induction fuel generalizing n with
  | zero => omega
  | succ fuel ih =>
    simp only [Nat.toDigitsCore]
    have hd := digitChar_value (n % 10) (Nat.mod_lt _ (by decide))
    split
    · rename_i h0
      simp only [List.foldl, hd]
      omega
    · rename_i h0
      rw [toDigitsCore_append, List.foldl_append, ih (n / 10) (by omega)]
      simp only [List.foldl, hd]
      omega

theorem repr_data (n : Nat) : (toString n).data = Nat.toDigitsCore 10 (n + 1) n [] := rfl

theorem repr_isDigit (n : Nat) : ∀ c ∈ (toString n).data, c.isDigit = true :=
  toDigitsCore_isDigit (n + 1) n

theorem repr_toNat? (n : Nat) : (toString n).toNat? = some n := by
  have hall : (toString n).all (fun c => c.isDigit) = true := by
    rw [String.all_eq]
    exact List.all_eq_true.mpr (repr_isDigit n)
  have hne : (toString n).isEmpty = false := by
    have hd : (toString n).data ≠ [] := by rw [repr_data]; exact toDigitsCore_ne_nil n n
    cases he : (toString n).isEmpty with
    | false => rfl
    | true =>
      have h0 := (String.isEmpty_iff _).mp he
      rw [h0] at hd
      exact absurd rfl hd
  simp only [String.toNat?, String.isNat, hne, hall, Bool.not_false, Bool.and_self, if_true]
  rw [String.foldl_eq, repr_data, toDigitsCore_value _ _ (by omega)]


theorem toInt?_repr (n : Nat) : (toString n).toInt? = some (n : Int) := by
  have hg : (toString n).get 0 ≠ '-' := by
    have h := String.get_of_valid [] (toString n).data
    simp only [String.utf8Len_nil, List.nil_append] at h
    have hd : (toString n).data ≠ [] := by rw [repr_data]; exact toDigitsCore_ne_nil n n
    cases hs : (toString n).data with
    | nil => exact absurd hs hd
    | cons c cs =>
      have hc : c.isDigit = true := repr_isDigit n c (by rw [hs]; simp)
      have h2 : (toString n).get 0 = c := by
        show (toString n).get ⟨0⟩ = c
        have : toString n = ⟨(toString n).data⟩ := rfl
        rw [this, h, hs]; rfl
      rw [h2]
      intro hm
      rw [hm] at hc
      exact absurd hc (by decide)
  simp [String.toInt?, hg, repr_toNat?]

theorem toInt?_neg_repr (n : Nat) : ("-" ++ toString n).toInt? = some (-(n : Int)) := by
  have hg : ("-" ++ toString n).get 0 = '-' := by
    have h := String.get_of_valid [] ("-" ++ toString n).data
    simp only [String.utf8Len_nil, List.nil_append] at h
    show ("-" ++ toString n).get ⟨0⟩ = '-'
    have : "-" ++ toString n = ⟨("-" ++ toString n).data⟩ := rfl
    rw [this, h]; rfl
  have hv : Substring.ValidFor ['-'] (toString n).data [] (("-" ++ toString n).toSubstring.drop 1) := by
    have h1 := (String.validFor_toSubstring ("-" ++ toString n)).drop 1
    simpa using h1
  have hall : (("-" ++ toString n).toSubstring.drop 1).all (fun c => c.isDigit) = true := by
    rw [hv.all]
    exact List.all_eq_true.mpr (repr_isDigit n)
  simp only [String.toInt?, hg, if_true, Substring.toNat?, Substring.isNat, hall]
  rw [hv.foldl, repr_data, toDigitsCore_value _ _ (by omega)]
  rfl

/-! ## Literals -/

theorem plainChar_of_isDigit (c : Char) (h : c.isDigit = true) : plainChar c = true := by
  simp [plainChar, h]

theorem repr_plain (n : Nat) : ∀ c ∈ (toString n).data, plainChar c = true :=
  fun c hc => plainChar_of_isDigit c (repr_isDigit n c hc)

theorem int_repr_plain (v : Int) : ∀ c ∈ (toString v).data, plainChar c = true := by
  cases v with
  | ofNat m => exact repr_plain m
  | negSucc m =>
    intro c hc
    have h : (toString (Int.negSucc m)).data = '-' :: (toString (m + 1)).data := rfl
    rw [h] at hc
    rcases List.mem_cons.mp hc with h1 | h1
    · rw [h1]; decide
    · exact repr_plain (m + 1) c h1

theorem join_empty_data (l : List String) :
    (stringsJoin l "").data = (l.map String.data).flatten := by
  cases l with
  | nil => rfl
  | cons a rest =>
    simp only [stringsJoin, String.intercalate, intercalate_go_data]
    have : (fun x : String => "".data ++ x.data) = String.data := by
      funext x; rfl
    simp [this]

theorem fill_spec (substrs : List String) (hne : substrs ≠ []) :
    ∀ (n i : Nat) (vals : List String) (r : Rand), vals.length = i + n →
      StrValue.fill substrs n i vals r
        = .ok (vals.take i ++ (List.range n).map
              (fun j => substrs.getD (r.seq (r.pos + j) % 2 ^ 63 % substrs.length) ""),
            ⟨r.seq, r.pos + n⟩) := by
  intro n
  induction n with
  | zero =>
    intro i vals r h
    simp only [Nat.add_zero] at h
    simp [StrValue.fill, List.take_of_length_le (Nat.le_of_eq h)]
  | succ n ih =>
    intro i vals r h
    have hpos : 0 < substrs.length := List.length_pos.mpr hne
    have hidx : r.seq r.pos % 2 ^ 63 % substrs.length < substrs.length := Nat.mod_lt _ hpos
    simp only [StrValue.fill, randInt, List.getElem?_eq_getElem hidx]
    rw [ih (i + 1) _ r.advance (by simp; omega), take_succ_set _ _ _ (by omega),
      List.range_succ_eq_map]
    have hget : substrs.getD (r.seq r.pos % 2 ^ 63 % substrs.length) ""
        = substrs[r.seq r.pos % 2 ^ 63 % substrs.length] := by
      rw [List.getD_eq_getElem?_getD, List.getElem?_eq_getElem hidx]; rfl
    simp only [List.map_cons, List.map_map, Nat.add_zero, hget, Rand.advance]
    simp [Nat.add_assoc, Nat.add_comm 1, Function.comp_def]

theorem fill_words (substrs : List String) (hne : substrs ≠ []) (n : Nat) (r : Rand) :
    ∃ ws, StrValue.fill substrs n 0 (List.replicate n "") r = .ok (ws, ⟨r.seq, r.pos + n⟩)
      ∧ ws.length = n ∧ ∀ w ∈ ws, w ∈ substrs := by
  refine ⟨_, fill_spec substrs hne n 0 _ r (by simp), by simp, ?_⟩
  intro w hw
  simp only [List.take_zero, List.nil_append, List.mem_map, List.mem_range] at hw
  obtain ⟨j, -, rfl⟩ := hw
  have hidx : r.seq (r.pos + j) % 2 ^ 63 % substrs.length < substrs.length :=
    Nat.mod_lt _ (List.length_pos.mpr hne)
  rw [List.getD_eq_getElem?_getD, List.getElem?_eq_getElem hidx]
  exact List.getElem_mem hidx

theorem substrs128_plain : ∀ w ∈ substrs128, ∀ c ∈ w.data, plainChar c = true := by decide

theorem substrs4_plain : ∀ w ∈ substrs4, ∀ c ∈ w.data, plainChar c = true := by decide

theorem words_join_plain (dict ws : List String)
    (hd : ∀ w ∈ dict, ∀ c ∈ w.data, plainChar c = true) (hw : ∀ w ∈ ws, w ∈ dict) :
    ∀ c ∈ (stringsJoin ws "").data, plainChar c = true := by
  intro c hc
  rw [join_empty_data] at hc
  obtain ⟨cs, hcs, hmem⟩ := List.mem_flatten.mp hc
  obtain ⟨w, hw1, rfl⟩ := List.mem_map.mp hcs
  exact hd w (hw w hw1) c hmem

theorem sign_eq (r : Rand) :
    sign r = (if r.seq r.pos % 2 ^ 63 % 2 = 0 then 1 else -1, ⟨r.seq, r.pos + 1⟩) := by
  unfold sign randInt
  simp only []
  split <;> rfl

theorem intValue_create_eq (r : Rand) :
    IntValue.Create r
      = (toString (wrapInt ((r.seq r.pos % 2 ^ 63 : Nat)
            * (if r.seq (r.pos + 1) % 2 ^ 63 % 2 = 0 then 1 else -1))),
          ⟨r.seq, r.pos + 2⟩) := by
  unfold IntValue.Create
  simp only [randInt, sign_eq, Rand.advance, Sprint]

theorem bintValue_create_eq (r : Rand) :
    BintValue.Create r
      = (toString (wrapInt ((r.seq r.pos % 2 ^ 63 : Nat)
            * (if r.seq (r.pos + 1) % 2 ^ 63 % 2 = 0 then 1 else -1))),
          ⟨r.seq, r.pos + 2⟩) := by
  unfold BintValue.Create
  simp only [randInt63, sign_eq, Rand.advance, Sprint]

theorem sintValue_create_eq (r : Rand) :
    SintValue.Create r
      = if r.seq r.pos % 0x7FFF ≠ 0 then
          ((if r.seq (r.pos + 1) % 10 < 5 then "-" else "") ++ toString (r.seq r.pos % 0x7FFF),
            ⟨r.seq, r.pos + 2⟩)
        else (toString (r.seq r.pos % 0x7FFF), ⟨r.seq, r.pos + 1⟩) := rfl

theorem tintValue_create_eq (r : Rand) :
    TintValue.Create r
      = if r.seq r.pos % 0x7F ≠ 0 then
          ((if r.seq (r.pos + 1) % 10 < 5 then "-" else "") ++ toString (r.seq r.pos % 0x7F),
            ⟨r.seq, r.pos + 2⟩)
        else (toString (r.seq r.pos % 0x7F), ⟨r.seq, r.pos + 1⟩) := rfl

theorem decValue_create_eq (r : Rand) :
    DecValue.Create r
      = (toString (wrapInt ((r.seq r.pos % 2 ^ 63 : Nat)
            * (if r.seq (r.pos + 1) % 2 ^ 63 % 2 = 0 then 1 else -1)))
          ++ "." ++ toString ((r.seq (r.pos + 2) % 99999999 : Nat) : Int),
          ⟨r.seq, r.pos + 3⟩) := by
  unfold DecValue.Create
  simp only [randInt, randIntn, sign_eq, Rand.advance, Sprint]
  refine Prod.ext (String.ext ?_) rfl
  simp [stringsJoin, String.intercalate, String.intercalate.go]

theorem strValue_create_four (r : Rand) :
    ∃ ws, StrValue.Create 4 r = .ok (stringsJoin ws "", ⟨r.seq, r.pos + 4⟩)
      ∧ ws.length = 4 ∧ ∀ w ∈ ws, w ∈ substrs4 := by
  obtain ⟨ws, hrun, hlen, hmem⟩ := fill_words substrs4 (by simp [substrs4]) 4 r
  refine ⟨ws, ?_, hlen, hmem⟩
  unfold StrValue.Create
  rw [if_neg (by decide), if_pos rfl]
  simp only [hrun]

theorem strValue_create_big (r : Rand) :
    ∃ ws, StrValue.Create 128 r
        = .ok (stringsJoin ws "", ⟨r.seq, r.pos + 1 + (r.seq r.pos % 2 ^ 63 % 10 + 1)⟩)
      ∧ ws.length = r.seq r.pos % 2 ^ 63 % 10 + 1 ∧ ∀ w ∈ ws, w ∈ substrs128 := by
  obtain ⟨ws, hrun, hlen, hmem⟩ :=
    fill_words substrs128 (by simp [substrs128]) (r.seq r.pos % 2 ^ 63 % 10 + 1) r.advance
  refine ⟨ws, ?_, hlen, hmem⟩
  unfold StrValue.Create
  rw [if_pos rfl]
  simp only [randInt, hrun]
  rfl

/-- A well-formed value type creates a literal of plain characters and only
moves the random source forward. -/
theorem nvalue_create_ok (nv : NValue) (hwf : nv.WellFormed) (r : Rand) :
    ∃ lit r1, nv.Create r = .ok (lit, r1) ∧ (∀ c ∈ lit.data, plainChar c = true)
      ∧ r1.seq = r.seq ∧ r.pos ≤ r1.pos := by
  cases nv with
  | IntValue =>
    refine ⟨_, _, congrArg Except.ok (intValue_create_eq r), int_repr_plain _, rfl, ?_⟩
    exact Nat.le_add_right _ _
  | BintValue =>
    refine ⟨_, _, congrArg Except.ok (bintValue_create_eq r), int_repr_plain _, rfl, ?_⟩
    exact Nat.le_add_right _ _
  | SintValue =>
    by_cases h0 : r.seq r.pos % 0x7FFF ≠ 0
    · refine ⟨_, _, congrArg Except.ok ((sintValue_create_eq r).trans (if_pos h0)), ?_, rfl,
        Nat.le_add_right _ _⟩
      intro c hc
      simp only [String.data_append, List.mem_append] at hc
      rcases hc with h | h
      · split at h
        · simp at h; rw [h]; decide
        · simp at h
      · exact repr_plain _ c h
    · exact ⟨_, _, congrArg Except.ok ((sintValue_create_eq r).trans (if_neg h0)),
        repr_plain _, rfl, Nat.le_add_right _ _⟩
  | TintValue =>
    by_cases h0 : r.seq r.pos % 0x7F ≠ 0
    · refine ⟨_, _, congrArg Except.ok ((tintValue_create_eq r).trans (if_pos h0)), ?_, rfl,
        Nat.le_add_right _ _⟩
      intro c hc
      simp only [String.data_append, List.mem_append] at hc
      rcases hc with h | h
      · split at h
        · simp at h; rw [h]; decide
        · simp at h
      · exact repr_plain _ c h
    · exact ⟨_, _, congrArg Except.ok ((tintValue_create_eq r).trans (if_neg h0)),
        repr_plain _, rfl, Nat.le_add_right _ _⟩
  | DecValue =>
    refine ⟨_, _, congrArg Except.ok (decValue_create_eq r), ?_, rfl, Nat.le_add_right _ _⟩
    intro c hc
    simp only [String.data_append, List.mem_append] at hc
    rcases hc with (h | h) | h
    · exact int_repr_plain _ c h
    · simp at h; rw [h]; decide
    · exact int_repr_plain _ c h
  | StrValue size =>
    rcases hwf with h | h
    · subst h
      obtain ⟨ws, hrun, -, hmem⟩ := strValue_create_four r
      exact ⟨_, _, hrun, words_join_plain substrs4 ws substrs4_plain hmem, rfl,
        Nat.le_add_right _ _⟩
    · subst h
      obtain ⟨ws, hrun, -, hmem⟩ := strValue_create_big r
      refine ⟨_, _, hrun, words_join_plain substrs128 ws substrs128_plain hmem, rfl, ?_⟩
      simp only []
      omega

theorem nvalue_create_error (nv : NValue) (hwf : ¬ nv.WellFormed) (r : Rand) :
    nv.Create r = .error "Invalid string size." := by
  cases nv with
  | StrValue size =>
    simp only [NValue.WellFormed, not_or] at hwf
    simp [NValue.Create, StrValue.Create, hwf.1, hwf.2]
  | _ => exact absurd trivial hwf

/-! ## Tuples (C9) -/

theorem createColumns_ok (schema : List NValue) (hwf : ∀ nv ∈ schema, nv.WellFormed)
    (r : Rand) :
    ∃ tuple r1, createColumns schema r = .ok (tuple, r1)
      ∧ tuple.length = schema.length
      ∧ (∀ lit ∈ tuple, ∀ c ∈ lit.data, plainChar c = true)
      ∧ r1.seq = r.seq ∧ r.pos ≤ r1.pos := by
  induction schema generalizing r with
  | nil => exact ⟨[], r, rfl, rfl, by simp, rfl, Nat.le_refl _⟩
  | cons nv rest ih =>
    obtain ⟨lit, r1, h1, hp, hs1, hle1⟩ := nvalue_create_ok nv (hwf nv (by simp)) r
    obtain ⟨lits, r2, h2, hl, hps, hs2, hle2⟩ := ih (fun v hv => hwf v (by simp [hv])) r1
    refine ⟨lit :: lits, r2, ?_, by simp [hl], ?_, hs2.trans hs1, Nat.le_trans hle1 hle2⟩
    · simp only [createColumns, h1, h2]
    · intro l hl
      rcases List.mem_cons.mp hl with h | h
      · rw [h]; exact hp
      · exact hps l h

theorem createColumns_chain (schema : List NValue) (r : Rand) (tuple : List String)
    (r1 : Rand) (h : createColumns schema r = .ok (tuple, r1)) :
    tuple.length = schema.length ∧ ∃ rs : Nat → Rand, rs 0 = r ∧ rs schema.length = r1
      ∧ ∀ (i : Nat) (h1 : i < schema.length) (h2 : i < tuple.length),
          schema[i].Create (rs i) = .ok (tuple[i], rs (i + 1)) := by
  induction schema generalizing r tuple with
  | nil =>
    simp only [createColumns, Except.ok.injEq, Prod.mk.injEq] at h
    obtain ⟨rfl, rfl⟩ := h
    exact ⟨rfl, fun _ => r, rfl, rfl, fun i h1 => absurd h1 (by simp)⟩
  | cons nv rest ih =>
    simp only [createColumns] at h
    cases hc : nv.Create r with
    | error e => rw [hc] at h; exact absurd h (by simp)
    | ok p =>
      obtain ⟨lit, ra⟩ := p
      rw [hc] at h
      simp only [] at h
      cases hr : createColumns rest ra with
      | error e => rw [hr] at h; exact absurd h (by simp)
      | ok q =>
        obtain ⟨lits, rb⟩ := q
        rw [hr] at h
        simp only [Except.ok.injEq, Prod.mk.injEq] at h
        obtain ⟨rfl, rfl⟩ := h
        obtain ⟨hlen, rs, hrs0, hrsn, hstep⟩ := ih ra lits hr
        refine ⟨by simp [hlen], fun i => match i with | 0 => r | j + 1 => rs j, rfl, hrsn, ?_⟩
        intro i h1 h2
        cases i with
        | zero => simpa [hrs0] using hc
        | succ j =>
          have := hstep j (by simpa using h1) (by simpa using h2)
          simpa using this

/-- C9: for a schema of well-formed value types, `createTuple` returns a tuple of
the schema's arity; its `i`-th entry is the literal `schema[i].Create()` returns,
the columns being created in increasing index order: column `i` runs on the
random source `rs i` left by the columns before it and leaves `rs (i+1)`. -/
theorem createTuple_columns (schema : List NValue) (hwf : ∀ nv ∈ schema, nv.WellFormed)
    (r : Rand) :
    ∃ (tuple : List String) (r1 : Rand) (rs : Nat → Rand),
      createTuple schema r = .ok (tuple, r1)
        ∧ tuple.length = schema.length
        ∧ rs 0 = r ∧ rs schema.length = r1
        ∧ (∀ i, i < schema.length → (rs i).pos ≤ (rs (i + 1)).pos)
        ∧ ∀ (i : Nat) (h1 : i < schema.length) (h2 : i < tuple.length),
            schema[i].Create (rs i) = .ok (tuple[i], rs (i + 1)) := by
  obtain ⟨tuple, r1, hrun, -, -, -, -⟩ := createColumns_ok schema hwf r
  obtain ⟨hlen, rs, h0, hn, hstep⟩ := createColumns_chain schema r tuple r1 hrun
  refine ⟨tuple, r1, rs, (createTuple_eq schema r).trans hrun, hlen, h0, hn, ?_, hstep⟩
  intro i hi
  obtain ⟨lit, r2, hc, -, -, hle⟩ :=
    nvalue_create_ok schema[i] (hwf _ (List.getElem_mem hi)) (rs i)
  have h := (hstep i hi (by omega)).symm.trans hc
  simp only [Except.ok.injEq, Prod.mk.injEq] at h
  rw [h.2]
  exact hle

/-- Instance of C9: a three-column schema on a constant stream of draws. -/
theorem createTuple_columns_witness :
    ∃ (tuple : List String) (r1 : Rand) (rs : Nat → Rand),
      createTuple [.SintValue, .StrValue 4, .DecValue] ⟨fun _ => 7, 0⟩ = .ok (tuple, r1)
        ∧ tuple.length = [NValue.SintValue, .StrValue 4, .DecValue].length
        ∧ rs 0 = ⟨fun _ => 7, 0⟩ ∧ rs [NValue.SintValue, .StrValue 4, .DecValue].length = r1
        ∧ (∀ i, i < [NValue.SintValue, .StrValue 4, .DecValue].length →
            (rs i).pos ≤ (rs (i + 1)).pos)
        ∧ ∀ (i : Nat) (h1 : i < [NValue.SintValue, .StrValue 4, .DecValue].length)
            (h2 : i < tuple.length),
            [NValue.SintValue, .StrValue 4, .DecValue][i].Create (rs i)
              = .ok (tuple[i], rs (i + 1)) :=
  createTuple_columns [.SintValue, .StrValue 4, .DecValue] (by decide) ⟨fun _ => 7, 0⟩

/-! ## Small integers (C10) -/

/-- C10: for every draw the literal of `SintValue.Create` parses as a decimal
integer of magnitude at most `0x7FFF`, and the literal of `TintValue.Create` as
one of magnitude at most `0x7F`. -/
theorem small_int_magnitude (r : Rand) :
    (∃ v : Int, (SintValue.Create r).1.toInt? = some v ∧ v.natAbs ≤ 0x7FFF)
      ∧ (∃ v : Int, (TintValue.Create r).1.toInt? = some v ∧ v.natAbs ≤ 0x7F) := by
  constructor
  · rw [sintValue_create_eq]
    have hlt : r.seq r.pos % 0x7FFF < 0x7FFF := Nat.mod_lt _ (by decide)
    split
    · split
      · exact ⟨_, toInt?_neg_repr _, by simp only [Int.natAbs_neg, Int.natAbs_ofNat]; omega⟩
      · refine ⟨((r.seq r.pos % 0x7FFF : Nat) : Int), ?_, ?_⟩
        · show ("" ++ toString (r.seq r.pos % 0x7FFF)).toInt? = _
          rw [String.empty_append]; exact toInt?_repr _
        · simp only [Int.natAbs_ofNat]; omega
    · exact ⟨_, toInt?_repr _, by simp only [Int.natAbs_ofNat]; omega⟩
  · rw [tintValue_create_eq]
    have hlt : r.seq r.pos % 0x7F < 0x7F := Nat.mod_lt _ (by decide)
    split
    · split
      · exact ⟨_, toInt?_neg_repr _, by simp only [Int.natAbs_neg, Int.natAbs_ofNat]; omega⟩
      · refine ⟨((r.seq r.pos % 0x7F : Nat) : Int), ?_, ?_⟩
        · show ("" ++ toString (r.seq r.pos % 0x7F)).toInt? = _
          rw [String.empty_append]; exact toInt?_repr _
        · simp only [Int.natAbs_ofNat]; omega
    · exact ⟨_, toInt?_repr _, by simp only [Int.natAbs_ofNat]; omega⟩

/-! ## Assignments to the tuple map -/

theorem mem_assign (m : TupleMap) (k0 : String) (v0 : List String) (k : String)
    (v : List String) :
    (k, v) ∈ m.assign k0 v0 ↔ ((k, v) ∈ m ∧ k ≠ k0) ∨ (k = k0 ∧ v = v0) := by
  simp [TupleMap.assign, List.mem_filter]

theorem keys_assign (m : TupleMap) (k0 : String) (v0 : List String) (k : String) :
    k ∈ (m.assign k0 v0).map Prod.fst ↔ k ∈ m.map Prod.fst ∨ k = k0 := by
  simp only [List.mem_map, Prod.exists, exists_and_right, exists_eq_right, mem_assign]
  constructor
  · rintro ⟨v, h | h⟩
    · exact Or.inl ⟨v, h.1⟩
    · exact Or.inr h.1
  · rintro (⟨v, h⟩ | h)
    · by_cases hk : k = k0
      · exact ⟨v0, Or.inr ⟨hk, rfl⟩⟩
      · exact ⟨v, Or.inl ⟨h, hk⟩⟩
    · exact ⟨v0, Or.inr ⟨h, rfl⟩⟩

theorem nodup_assign (m : TupleMap) (k0 : String) (v0 : List String)
    (h : (m.map Prod.fst).Nodup) : ((m.assign k0 v0).map Prod.fst).Nodup := by
  simp only [TupleMap.assign, List.map_append, List.map_cons, List.map_nil]
  rw [List.nodup_append]
  refine ⟨(h.sublist ((List.filter_sublist m).map Prod.fst)), List.nodup_singleton _, ?_⟩
  intro a ha hb
  simp only [List.mem_singleton] at hb
  subst hb
  simp [List.mem_filter] at ha

theorem assignAll_snoc (schema : List NValue) (m : TupleMap) (cs : List (List String))
    (t : List String) :
    assignAll schema m (cs ++ [t]) = (assignAll schema m cs).assign (keyOf schema t) t := by
  simp [assignAll, List.foldl_append]

theorem assignAll_nodup (schema : List NValue) (m : TupleMap) (cs : List (List String))
    (h : (m.map Prod.fst).Nodup) : ((assignAll schema m cs).map Prod.fst).Nodup := by
  induction cs using List.reverseRecOn with
  | nil => exact h
  | append_singleton cs t ih => rw [assignAll_snoc]; exact nodup_assign _ _ _ ih

theorem assignAll_keys (schema : List NValue) (cs : List (List String)) (k : String) :
    k ∈ (assignAll schema [] cs).map Prod.fst ↔ k ∈ cs.map (keyOf schema) := by
  induction cs using List.reverseRecOn with
  | nil => simp [assignAll]
  | append_singleton cs t ih =>
    rw [assignAll_snoc, keys_assign, ih]
    simp

/-- Last write wins: an entry of the map is the last candidate with its key. -/
theorem assignAll_mem (schema : List NValue) (cs : List (List String)) (k : String)
    (v : List String) :
    (k, v) ∈ assignAll schema [] cs ↔
      ∃ pre post, cs = pre ++ v :: post ∧ keyOf schema v = k
        ∧ ∀ u ∈ post, keyOf schema u ≠ k := by
  induction cs using List.reverseRecOn with
  | nil => simp [assignAll]
  | append_singleton cs t ih =>
    rw [assignAll_snoc, mem_assign, ih]
    constructor
    · rintro (⟨⟨pre, post, hcs, hk, hpost⟩, hne⟩ | ⟨hk, hv⟩)
      · refine ⟨pre, post ++ [t], by simp [hcs], hk, ?_⟩
        intro u hu
        rcases List.mem_append.mp hu with h | h
        · exact hpost u h
        · simp only [List.mem_singleton] at h
          rw [h]; exact fun e => hne e.symm
      · exact ⟨cs, [], by simp [hv], by rw [hv, hk], by simp⟩
    · rintro ⟨pre, post, hcs, hk, hpost⟩
      rcases List.eq_nil_or_concat post with h | ⟨post1, u, h⟩
      · subst h
        have := List.append_inj' hcs (by simp)
        simp only [List.cons.injEq, and_true] at this
        exact Or.inr ⟨by rw [← hk, this.2], this.2.symm⟩
      · subst h
        have h2 : cs ++ [t] = (pre ++ v :: post1) ++ [u] := by simp [hcs]
        have := List.append_inj' h2 (by simp)
        simp only [List.cons.injEq, and_true] at this
        refine Or.inl ⟨⟨pre, post1, this.1, hk, fun w hw => hpost w (by simp [hw])⟩, ?_⟩
        rw [this.2]
        exact fun e => hpost u (by simp) e.symm

theorem length_eq_dedup_length {α : Type} [DecidableEq α] (l1 l2 : List α) (h1 : l1.Nodup)
    (h : ∀ a, a ∈ l1 ↔ a ∈ l2) : l1.length = l2.dedup.length := by
  apply List.Perm.length_eq
  rw [List.perm_ext_iff_of_nodup h1 (List.nodup_dedup l2)]
  intro a
  rw [h a, List.mem_dedup]

theorem assignAll_length (schema : List NValue) (cs : List (List String)) :
    (assignAll schema [] cs).length = (cs.map (keyOf schema)).dedup.length := by
  have h := length_eq_dedup_length ((assignAll schema [] cs).map Prod.fst)
    (cs.map (keyOf schema)) (assignAll_nodup schema [] cs (by simp))
    (assignAll_keys schema cs)
  simpa using h

/-! ## The insertion loop (C3) -/

theorem createTuple_length (schema : List NValue) (r : Rand) (tuple : List String)
    (r1 : Rand) (h : createTuple schema r = .ok (tuple, r1)) :
    tuple.length = schema.length :=
  (createColumns_chain schema r tuple r1 ((createTuple_eq schema r).symm.trans h)).1

theorem tupleKey_eq_keyOf (schema : List NValue) (tuple : List String)
    (h : tuple.length = schema.length) : tupleKey schema tuple = .ok (keyOf schema tuple) :=
  tupleKey_eq_keyParts schema tuple (Nat.le_of_eq h.symm)

theorem insertLoop_eq (schema : List NValue) :
    ∀ (n : Nat) (m : TupleMap) (r : Rand),
      insertLoop schema n m r =
        match candidateTuples schema n r with
        | .error e => .error e
        | .ok (cs, r1) => .ok (assignAll schema m cs, r1) := by
  intro n
  induction n with
  | zero => intro m r; rfl
  | succ n ih =>
    intro m r
    simp only [insertLoop, candidateTuples]
    cases hc : createTuple schema r with
    | error e => rfl
    | ok p =>
      obtain ⟨t, r1⟩ := p
      simp only []
      rw [tupleKey_eq_keyOf schema t (createTuple_length schema r t r1 hc)]
      simp only []
      rw [ih]
      cases candidateTuples schema n r1 with
      | error e => rfl
      | ok q => rfl

theorem candidateTuples_spec (schema : List NValue) :
    ∀ (n : Nat) (r : Rand) (cs : List (List String)) (r1 : Rand),
      candidateTuples schema n r = .ok (cs, r1) →
      cs.length = n ∧ ∀ t ∈ cs, t.length = schema.length := by
  intro n
  induction n with
  | zero =>
    intro r cs r1 h
    simp only [candidateTuples, Except.ok.injEq, Prod.mk.injEq] at h
    obtain ⟨rfl, -⟩ := h
    simp
  | succ n ih =>
    intro r cs r1 h
    simp only [candidateTuples] at h
    cases hc : createTuple schema r with
    | error e => rw [hc] at h; exact absurd h (by simp)
    | ok p =>
      obtain ⟨t, ra⟩ := p
      rw [hc] at h
      simp only [] at h
      cases hr : candidateTuples schema n ra with
      | error e => rw [hr] at h; exact absurd h (by simp)
      | ok q =>
        obtain ⟨ts, rb⟩ := q
        rw [hr] at h
        simp only [Except.ok.injEq, Prod.mk.injEq] at h
        obtain ⟨rfl, -⟩ := h
        obtain ⟨hl, hall⟩ := ih ra ts rb hr
        refine ⟨by simp [hl], ?_⟩
        intro u hu
        rcases List.mem_cons.mp hu with h1 | h1
        · rw [h1]; exact createTuple_length schema r t ra hc
        · exact hall u h1

theorem candidateTuples_ok (schema : List NValue) (hwf : ∀ nv ∈ schema, nv.WellFormed) :
    ∀ (n : Nat) (r : Rand), ∃ cs r1, candidateTuples schema n r = .ok (cs, r1)
      ∧ ∀ t ∈ cs, ∀ lit ∈ t, ∀ c ∈ lit.data, plainChar c = true := by
  intro n
  induction n with
  | zero => intro r; exact ⟨[], r, rfl, by simp⟩
  | succ n ih =>
    intro r
    obtain ⟨t, r1, h1, -, hp, -, -⟩ := createColumns_ok schema hwf r
    obtain ⟨ts, r2, h2, hps⟩ := ih r1
    refine ⟨t :: ts, r2, ?_, ?_⟩
    · simp only [candidateTuples, createTuple_eq, h1, h2]
    · intro u hu
      rcases List.mem_cons.mp hu with h | h
      · rw [h]; exact hp
      · exact hps u h

theorem candidateTuples_error (schema : List NValue) (hwf : ¬ ∀ nv ∈ schema, nv.WellFormed)
    (n : Nat) (r : Rand) :
    candidateTuples schema (n + 1) r = .error "Invalid string size." := by
  have hcol : ∀ (s : List NValue), (¬ ∀ nv ∈ s, nv.WellFormed) → ∀ r0 : Rand,
      createColumns s r0 = .error "Invalid string size." := by
    intro s
    induction s with
    | nil => intro h; exact absurd (by simp) h
    | cons nv rest ih =>
      intro h r0
      by_cases hnv : nv.WellFormed
      · obtain ⟨lit, r1, hc, -⟩ := nvalue_create_ok nv hnv r0
        have hrest : ¬ ∀ v ∈ rest, v.WellFormed := by
          intro hall
          apply h
          intro v hv
          rcases List.mem_cons.mp hv with h1 | h1
          · rw [h1]; exact hnv
          · exact hall v h1
        simp only [createColumns, hc, ih hrest r1]
      · simp only [createColumns, nvalue_create_error nv hnv r0]
  simp only [candidateTuples, createTuple_eq, hcol schema hwf r]

theorem insertLoop_spec (schema : List NValue) (r : Rand) (m : TupleMap) (r1 : Rand)
    (h : insertLoop schema 10 [] r = .ok (m, r1)) :
    ∃ cands, candidateTuples schema 10 r = .ok (cands, r1) ∧ cands.length = 10
      ∧ (m.map Prod.fst).Nodup
      ∧ (∀ k, k ∈ m.map Prod.fst ↔ ∃ t ∈ cands, tupleKey schema t = .ok k)
      ∧ (∀ k v, (k, v) ∈ m ↔
          ∃ pre post, cands = pre ++ v :: post ∧ tupleKey schema v = .ok k
            ∧ ∀ u ∈ post, tupleKey schema u ≠ .ok k)
      ∧ m.length = (cands.map (tupleKey schema)).dedup.length
      ∧ 1 ≤ m.length ∧ m.length ≤ 10 := by
  rw [insertLoop_eq] at h
  cases hc : candidateTuples schema 10 r with
  | error e => rw [hc] at h; exact absurd h (by simp)
  | ok q =>
    obtain ⟨cs, r2⟩ := q
    rw [hc] at h
    simp only [Except.ok.injEq, Prod.mk.injEq] at h
    obtain ⟨rfl, rfl⟩ := h
    obtain ⟨hlen, harity⟩ := candidateTuples_spec schema 10 r cs r2 hc
    have hkey : ∀ t ∈ cs, tupleKey schema t = .ok (keyOf schema t) :=
      fun t ht => tupleKey_eq_keyOf schema t (harity t ht)
    have hmap : cs.map (tupleKey schema) = (cs.map (keyOf schema)).map Except.ok := by
      rw [List.map_map]
      exact List.map_congr_left hkey
    have hcount : (assignAll schema [] cs).length
        = (cs.map (tupleKey schema)).dedup.length := by
      rw [assignAll_length, hmap,
        List.dedup_map_of_injective (fun a b e => Except.ok.inj e), List.length_map]
    refine ⟨cs, rfl, hlen, assignAll_nodup schema [] cs (by simp), ?_, ?_, hcount, ?_, ?_⟩
    · intro k
      rw [assignAll_keys]
      simp only [List.mem_map]
      constructor
      · rintro ⟨t, ht, hk⟩
        exact ⟨t, ht, by rw [hkey t ht, hk]⟩
      · rintro ⟨t, ht, hk⟩
        rw [hkey t ht] at hk
        exact ⟨t, ht, Except.ok.inj hk⟩
    · intro k v
      rw [assignAll_mem]
      constructor
      · rintro ⟨pre, post, hcs, hk, hpost⟩
        refine ⟨pre, post, hcs, by rw [hkey v (by simp [hcs]), hk], ?_⟩
        intro u hu
        rw [hkey u (by simp [hcs, hu])]
        exact fun e => hpost u hu (Except.ok.inj e)
      · rintro ⟨pre, post, hcs, hk, hpost⟩
        rw [hkey v (by simp [hcs])] at hk
        refine ⟨pre, post, hcs, Except.ok.inj hk, ?_⟩
        intro u hu e
        exact hpost u hu (by rw [hkey u (by simp [hcs, hu]), e])
    · obtain ⟨t, ht⟩ := List.exists_mem_of_length_pos (show 0 < cs.length by omega)
      have hk := (assignAll_keys schema cs (keyOf schema t)).mpr (List.mem_map_of_mem _ ht)
      have := List.length_pos_of_mem hk
      simpa using this
    · rw [hcount]
      exact Nat.le_trans (List.Sublist.length_le (List.dedup_sublist _)) (by simp [hlen])

/-- C3: the insertion loop of `simpleUniqueGenerator`, started from the empty
map, completes for every schema of well-formed value types; whenever it
completes, the keys of the map are pairwise distinct and are exactly the
canonical keys of the 10 candidates, each key maps to the last candidate having
that key, and the number of entries is the number of distinct canonical keys,
which is at least 1 and at most 10. -/
theorem insertLoop_last_write_wins (schema : List NValue) (r : Rand) :
    ((∀ nv ∈ schema, nv.WellFormed) → ∃ m r1, insertLoop schema 10 [] r = .ok (m, r1))
      ∧ ∀ (m : TupleMap) (r1 : Rand), insertLoop schema 10 [] r = .ok (m, r1) →
        ∃ cands, candidateTuples schema 10 r = .ok (cands, r1) ∧ cands.length = 10
          ∧ (m.map Prod.fst).Nodup
          ∧ (∀ k, k ∈ m.map Prod.fst ↔ ∃ t ∈ cands, tupleKey schema t = .ok k)
          ∧ (∀ k v, (k, v) ∈ m ↔
              ∃ pre post, cands = pre ++ v :: post ∧ tupleKey schema v = .ok k
                ∧ ∀ u ∈ post, tupleKey schema u ≠ .ok k)
          ∧ m.length = (cands.map (tupleKey schema)).dedup.length
          ∧ 1 ≤ m.length ∧ m.length ≤ 10 := by
  constructor
  · intro hwf
    obtain ⟨cs, r1, hc, -⟩ := candidateTuples_ok schema hwf 10 r
    exact ⟨_, r1, by rw [insertLoop_eq, hc]⟩
  · exact insertLoop_spec schema r

/-- Instance of C3: an `sint` column on a constant stream of draws, where all
ten candidates collapse into one entry. -/
theorem insertLoop_last_write_wins_witness :
    ((∀ nv ∈ [NValue.SintValue], nv.WellFormed) →
        ∃ m r1, insertLoop [.SintValue] 10 [] ⟨fun _ => 7, 0⟩ = .ok (m, r1))
      ∧ ∀ (m : TupleMap) (r1 : Rand),
        insertLoop [.SintValue] 10 [] ⟨fun _ => 7, 0⟩ = .ok (m, r1) →
        ∃ cands, candidateTuples [.SintValue] 10 ⟨fun _ => 7, 0⟩ = .ok (cands, r1)
          ∧ cands.length = 10
          ∧ (m.map Prod.fst).Nodup
          ∧ (∀ k, k ∈ m.map Prod.fst ↔ ∃ t ∈ cands, tupleKey [.SintValue] t = .ok k)
          ∧ (∀ k v, (k, v) ∈ m ↔
              ∃ pre post, cands = pre ++ v :: post ∧ tupleKey [.SintValue] v = .ok k
                ∧ ∀ u ∈ post, tupleKey [.SintValue] u ≠ .ok k)
          ∧ m.length = (cands.map (tupleKey [.SintValue])).dedup.length
          ∧ 1 ≤ m.length ∧ m.length ≤ 10 :=
  insertLoop_last_write_wins [.SintValue] ⟨fun _ => 7, 0⟩

/-! ## Emission -/

theorem rangePrint_eq_render (cmd : String) (hcmd : ∀ c ∈ cmd.data, c ≠ '%')
    (entries : TupleMap)
    (h : ∀ e ∈ entries, e.2 ≠ [] ∧ ∀ s ∈ e.2, ∀ c ∈ s.data, c ≠ '%') :
    rangePrint cmd entries = renderLines ((valueLists entries).map (cmd ++ ·)) := by
  rw [rangePrint_eq cmd hcmd entries h]
  simp [renderLines, valueLists, Function.comp_def]

theorem renderLines_append (a b : List String) :
    renderLines (a ++ b) = renderLines a ++ renderLines b := by
  apply String.ext
  simp [renderLines, String.join_eq]

theorem simpleUniqueGenerator_eq (tuples : TupleMap) (schema : List NValue)
    (order : Nat → TupleMap → TupleMap) (r : Rand) (m : TupleMap) (r1 : Rand)
    (hloop : insertLoop schema 10 tuples r = .ok (m, r1))
    (hord : ∀ k, (order k m).Perm m)
    (hm : ∀ e ∈ m, e.2 ≠ [] ∧ ∀ s ∈ e.2, ∀ c ∈ s.data, c ≠ '%') :
    simpleUniqueGenerator tuples schema order r
      = .ok (renderLines (blockLines (valueLists (order 0 m)) (valueLists (order 1 m))
          (valueLists (order 2 m)) (valueLists (order 3 m)) (valueLists (order 4 m))
          (valueLists (order 5 m))), m, r1) := by
  have hk : ∀ k, ∀ e ∈ order k m, e.2 ≠ [] ∧ ∀ s ∈ e.2, ∀ c ∈ s.data, c ≠ '%' :=
    fun k e he => hm e ((hord k).mem_iff.mp he)
  unfold simpleUniqueGenerator
  rw [hloop]
  simp only []
  rw [rangePrint_eq_render "is " (by decide) _ (hk 0),
    rangePrint_eq_render "ls " (by decide) _ (hk 1),
    rangePrint_eq_render "if " (by decide) _ (hk 2),
    rangePrint_eq_render "ds " (by decide) _ (hk 3),
    rangePrint_eq_render "df " (by decide) _ (hk 4),
    rangePrint_eq_render "lf " (by decide) _ (hk 5)]
  simp only [blockLines, renderLines_append]
  rfl


theorem plainChar_ne (c : Char) (h : plainChar c = true) :
    c ≠ '%' ∧ c ≠ '\n' ∧ c ≠ ',' := by
  refine ⟨?_, ?_, ?_⟩ <;> (intro e; rw [e] at h; exact absurd h (by decide))

theorem mem_intercalate_data (sep : String) (l : List String) (c : Char)
    (h : c ∈ (sep.intercalate l).data) : c ∈ sep.data ∨ ∃ s ∈ l, c ∈ s.data := by
  cases l with
  | nil => simp [String.intercalate] at h
  | cons a rest =>
    simp only [String.intercalate, intercalate_go_data, List.mem_append, List.mem_flatten,
      List.mem_map] at h
    rcases h with h | ⟨cs, ⟨s, hs, rfl⟩, hc⟩
    · exact Or.inr ⟨a, by simp, h⟩
    · rcases List.mem_append.mp hc with h1 | h1
      · exact Or.inl h1
      · exact Or.inr ⟨s, by simp [hs], h1⟩

theorem valueLists_no_newline (entries : TupleMap)
    (h : ∀ e ∈ entries, ∀ s ∈ e.2, ∀ c ∈ s.data, plainChar c = true) :
    ∀ v ∈ valueLists entries, '\n' ∉ v.data := by
  intro v hv hc
  simp only [valueLists, List.mem_map] at hv
  obtain ⟨e, he, rfl⟩ := hv
  rcases mem_intercalate_data _ _ _ hc with h1 | ⟨s, hs, h1⟩
  · exact absurd h1 (by decide)
  · exact (plainChar_ne _ (h e he s hs _ h1)).2.1 rfl

theorem lineCount_append (a b : String) : lineCount (a ++ b) = lineCount a + lineCount b := by
  simp [lineCount, List.count_append]

theorem lineCount_renderLines (lines : List String) (h : ∀ l ∈ lines, '\n' ∉ l.data) :
    lineCount (renderLines lines) = lines.length := by
  induction lines with
  | nil => rfl
  | cons l rest ih =>
    have hr : renderLines (l :: rest) = (l ++ "\n") ++ renderLines rest := by
      apply String.ext
      simp [renderLines, String.join_eq]
    rw [hr, lineCount_append, lineCount_append, ih (fun x hx => h x (by simp [hx]))]
    have h1 : lineCount "\n" = 1 := by decide
    have h0 : lineCount l = 0 := List.count_eq_zero.mpr (h l (by simp))
    simp only [List.length_cons]
    omega

theorem blockLines_length (g1 g2 g3 g4 g5 g6 : List String) :
    (blockLines g1 g2 g3 g4 g5 g6).length
      = g1.length + g2.length + g3.length + g4.length + g5.length + g6.length + 1 := by
  simp only [blockLines, List.length_append, List.length_map, List.length_singleton]

theorem blockLines_no_newline (g1 g2 g3 g4 g5 g6 : List String)
    (h : ∀ v ∈ g1 ++ g2 ++ g3 ++ g4 ++ g5 ++ g6, '\n' ∉ v.data) :
    ∀ l ∈ blockLines g1 g2 g3 g4 g5 g6, '\n' ∉ l.data := by
  intro l hl
  simp only [blockLines, List.mem_append, List.mem_map, List.mem_singleton] at hl
  have key : ∀ (cmd : String), '\n' ∉ cmd.data → ∀ v, '\n' ∉ v.data → '\n' ∉ (cmd ++ v).data := by
    intro cmd hc v hv hmem
    simp only [String.data_append, List.mem_append] at hmem
    exact hmem.elim hc hv
  simp only [List.mem_append] at h
  rcases hl with (((((⟨v, hv, rfl⟩ | ⟨v, hv, rfl⟩) | ⟨v, hv, rfl⟩) | ⟨v, hv, rfl⟩) | ⟨v, hv, rfl⟩)
    | ⟨v, hv, rfl⟩) | rfl
  · exact key _ (by decide) v (h v (by simp [hv]))
  · exact key _ (by decide) v (h v (by simp [hv]))
  · exact key _ (by decide) v (h v (by simp [hv]))
  · exact key _ (by decide) v (h v (by simp [hv]))
  · exact key _ (by decide) v (h v (by simp [hv]))
  · exact key _ (by decide) v (h v (by simp [hv]))
  · decide

/-- The entries retained by the insertion loop for a non-empty schema of
well-formed value types are non-empty tuples of plain literals. -/
theorem insertLoop_entries (schema : List NValue) (hne : schema ≠ [])
    (hwf : ∀ nv ∈ schema, nv.WellFormed) (r : Rand) :
    ∃ cands m r1, candidateTuples schema 10 r = .ok (cands, r1)
      ∧ insertLoop schema 10 [] r = .ok (m, r1)
      ∧ m.length = (cands.map (tupleKey schema)).dedup.length
      ∧ 1 ≤ m.length ∧ m.length ≤ 10
      ∧ ∀ e ∈ m, e.2 ≠ [] ∧ ∀ s ∈ e.2, ∀ c ∈ s.data, plainChar c = true := by
  obtain ⟨cs, r1, hc, hplain⟩ := candidateTuples_ok schema hwf 10 r
  have hloop : insertLoop schema 10 [] r = .ok (assignAll schema [] cs, r1) := by
    rw [insertLoop_eq, hc]
  obtain ⟨cs2, hc2, -, -, -, hmem, hlen, h1, h10⟩ :=
    insertLoop_spec schema r _ _ hloop
  rw [hc] at hc2
  simp only [Except.ok.injEq, Prod.mk.injEq, and_true] at hc2
  subst hc2
  refine ⟨cs, _, r1, hc, hloop, hlen, h1, h10, ?_⟩
  intro e he
  obtain ⟨pre, post, hcs, -, -⟩ := (hmem e.1 e.2).mp he
  have hin : e.2 ∈ cs := by rw [hcs]; simp
  have harity := (candidateTuples_spec schema 10 r cs r1 hc).2 e.2 hin
  refine ⟨?_, hplain e.2 hin⟩
  intro h0
  rw [h0] at harity
  exact hne (List.eq_nil_of_length_eq_zero harity.symm)


/-! ## Command groups -/

theorem percent_free_of_plain (m : TupleMap)
    (h : ∀ e ∈ m, e.2 ≠ [] ∧ ∀ s ∈ e.2, ∀ c ∈ s.data, plainChar c = true) :
    ∀ e ∈ m, e.2 ≠ [] ∧ ∀ s ∈ e.2, ∀ c ∈ s.data, c ≠ '%' :=
  fun e he => ⟨(h e he).1, fun s hs c hc => (plainChar_ne c ((h e he).2 s hs c hc)).1⟩

theorem valueLists_perm (a b : TupleMap) (h : a.Perm b) :
    (valueLists a).Perm (valueLists b) := h.map _

theorem groups_no_newline (order : Nat → TupleMap → TupleMap) (m : TupleMap)
    (hord : ∀ k, (order k m).Perm m)
    (h : ∀ e ∈ m, e.2 ≠ [] ∧ ∀ s ∈ e.2, ∀ c ∈ s.data, plainChar c = true) :
    ∀ k, ∀ v ∈ valueLists (order k m), '\n' ∉ v.data :=
  fun k => valueLists_no_newline (order k m)
    (fun e he => (h e ((hord k).mem_iff.mp he)).2)

/-- On any non-empty schema of well-formed value types, whatever the draws and
the visiting order, `simpleUniqueGenerator` started on the empty map writes the
lines of six command groups in the order `is`, `ls`, `if`, `ds`, `df`, `lf`,
followed by the line `exec`, and nothing else; no value list contains a
newline. -/
theorem block_shape_of_wellFormed (schema : List NValue) (hne : schema ≠ [])
    (hwf : ∀ nv ∈ schema, nv.WellFormed) (order : Nat → TupleMap → TupleMap)
    (hord : ∀ k t, (order k t).Perm t) (r : Rand) :
    ∃ out m r1, simpleUniqueGenerator [] schema order r = .ok (out, m, r1)
      ∧ out = renderLines (blockLines (valueLists (order 0 m)) (valueLists (order 1 m))
          (valueLists (order 2 m)) (valueLists (order 3 m)) (valueLists (order 4 m))
          (valueLists (order 5 m)))
      ∧ (∀ k, ∀ v ∈ valueLists (order k m), '\n' ∉ v.data)
      ∧ BlockShape out := by
  obtain ⟨cs, m, r1, -, hloop, -, -, -, hm⟩ := insertLoop_entries schema hne hwf r
  have hnl := groups_no_newline order m (fun k => hord k m) hm
  refine ⟨_, m, r1,
    simpleUniqueGenerator_eq [] schema order r m r1 hloop (fun k => hord k m)
      (percent_free_of_plain m hm), rfl, hnl, ?_⟩
  refine ⟨_, _, _, _, _, _, ?_, rfl⟩
  intro v hv
  simp only [List.mem_append] at hv
  rcases hv with ((((h | h) | h) | h) | h) | h
  · exact hnl 0 v h
  · exact hnl 1 v h
  · exact hnl 2 v h
  · exact hnl 3 v h
  · exact hnl 4 v h
  · exact hnl 5 v h

/-- On any non-empty schema of well-formed value types, whatever the draws and
the visiting order, each of the six command groups written by
`simpleUniqueGenerator` started on the empty map lists exactly the retained
tuples, each once, so it has `k` lines, `k` being the number of distinct
canonical keys among the 10 candidates; the body has `6k+1` lines. -/
theorem group_counts_of_wellFormed (schema : List NValue) (hne : schema ≠ [])
    (hwf : ∀ nv ∈ schema, nv.WellFormed) (order : Nat → TupleMap → TupleMap)
    (hord : ∀ k t, (order k t).Perm t) (r : Rand) :
    ∃ cands out m r1, candidateTuples schema 10 r = .ok (cands, r1)
      ∧ simpleUniqueGenerator [] schema order r = .ok (out, m, r1)
      ∧ m.length = (cands.map (tupleKey schema)).dedup.length
      ∧ (m.map Prod.fst).Nodup
      ∧ out = renderLines (blockLines (valueLists (order 0 m)) (valueLists (order 1 m))
          (valueLists (order 2 m)) (valueLists (order 3 m)) (valueLists (order 4 m))
          (valueLists (order 5 m)))
      ∧ (∀ k, (valueLists (order k m)).Perm (valueLists m)
          ∧ (valueLists (order k m)).length = (cands.map (tupleKey schema)).dedup.length)
      ∧ lineCount out = 6 * (cands.map (tupleKey schema)).dedup.length + 1 := by
  obtain ⟨cs, m, r1, hc, hloop, hlen, -, -, hm⟩ := insertLoop_entries schema hne hwf r
  obtain ⟨cs2, hc2, -, hnodup, -⟩ := insertLoop_spec schema r m r1 hloop
  have hnl := groups_no_newline order m (fun k => hord k m) hm
  have hk : ∀ k, (valueLists (order k m)).length = m.length := fun k => by
    simp [valueLists, (hord k m).length_eq]
  refine ⟨cs, _, m, r1, hc,
    simpleUniqueGenerator_eq [] schema order r m r1 hloop (fun k => hord k m)
      (percent_free_of_plain m hm), hlen, hnodup, rfl,
    fun k => ⟨valueLists_perm _ _ (hord k m), by rw [hk k, hlen]⟩, ?_⟩
  rw [lineCount_renderLines, blockLines_length, hk 0, hk 1, hk 2, hk 3, hk 4, hk 5, hlen]
  · omega
  · apply blockLines_no_newline
    intro v hv
    simp only [List.mem_append] at hv
    rcases hv with ((((h | h) | h) | h) | h) | h
    · exact hnl 0 v h
    · exact hnl 1 v h
    · exact hnl 2 v h
    · exact hnl 3 v h
    · exact hnl 4 v h
    · exact hnl 5 v h


/-! ## Command lines (C6) -/

/-- The condition on `%` cannot be dropped: a literal is passed to `fmt.Printf`
as the format, so `%%` is written as a single percent sign. -/
theorem printSliceAsList_percent : printSliceAsList ["%%"] = "%\n" := by decide

/-- C6: whenever `simpleUniqueGenerator` completes and the retained tuples are
non-empty with literals free of `%`, every command line it writes is the command
token, one space, the literals of the tuple joined by `","` and one newline; and
`printSliceAsList` writes, for every such slice, the comma-join of the slice
followed by exactly one newline. -/
theorem command_line_format (tuples : TupleMap) (schema : List NValue)
    (order : Nat → TupleMap → TupleMap) (r : Rand) (out : String) (m : TupleMap)
    (r1 : Rand) (hord : ∀ k t, (order k t).Perm t)
    (hrun : simpleUniqueGenerator tuples schema order r = .ok (out, m, r1))
    (hm : ∀ e ∈ m, e.2 ≠ [] ∧ ∀ s ∈ e.2, ∀ c ∈ s.data, c ≠ '%') :
    out = String.join ((order 0 m).map fun e => "is" ++ " " ++ ",".intercalate e.2 ++ "\n")
        ++ String.join ((order 1 m).map fun e => "ls" ++ " " ++ ",".intercalate e.2 ++ "\n")
        ++ String.join ((order 2 m).map fun e => "if" ++ " " ++ ",".intercalate e.2 ++ "\n")
        ++ String.join ((order 3 m).map fun e => "ds" ++ " " ++ ",".intercalate e.2 ++ "\n")
        ++ String.join ((order 4 m).map fun e => "df" ++ " " ++ ",".intercalate e.2 ++ "\n")
        ++ String.join ((order 5 m).map fun e => "lf" ++ " " ++ ",".intercalate e.2 ++ "\n")
        ++ "exec\n"
      ∧ ∀ slice : List String, slice ≠ [] → (∀ s ∈ slice, ∀ c ∈ s.data, c ≠ '%') →
          printSliceAsList slice = ",".intercalate slice ++ "\n" := by
  refine ⟨?_, printSliceAsList_eq⟩
  have hk : ∀ k, ∀ e ∈ order k m, e.2 ≠ [] ∧ ∀ s ∈ e.2, ∀ c ∈ s.data, c ≠ '%' :=
    fun k e he => hm e ((hord k m).mem_iff.mp he)
  unfold simpleUniqueGenerator at hrun
  cases hloop : insertLoop schema 10 tuples r with
  | error e => rw [hloop] at hrun; exact absurd hrun (by simp)
  | ok q =>
    obtain ⟨m2, r2⟩ := q
    rw [hloop] at hrun
    simp only [Except.ok.injEq, Prod.mk.injEq] at hrun
    obtain ⟨hout, rfl, rfl⟩ := hrun
    rw [← hout, rangePrint_eq "is " (by decide) _ (hk 0),
      rangePrint_eq "ls " (by decide) _ (hk 1), rangePrint_eq "if " (by decide) _ (hk 2),
      rangePrint_eq "ds " (by decide) _ (hk 3), rangePrint_eq "df " (by decide) _ (hk 4),
      rangePrint_eq "lf " (by decide) _ (hk 5)]
    rfl

/-- Instance of C6: a `tint` column on the constant stream of draws 7. -/
theorem command_line_format_witness :
    simpleUniqueGenerator [] [.TintValue] (fun _ t => t) ⟨fun _ => 7, 0⟩
        = .ok ("is 7\nls 7\nif 7\nds 7\ndf 7\nlf 7\nexec\n", [("tint:7", ["7"])],
            ⟨fun _ => 7, 20⟩)
      ∧ ("is 7\nls 7\nif 7\nds 7\ndf 7\nlf 7\nexec\n"
          = String.join ([("tint:7", ["7"])].map
              fun e => "is" ++ " " ++ ",".intercalate e.2 ++ "\n")
          ++ String.join ([("tint:7", ["7"])].map
              fun e => "ls" ++ " " ++ ",".intercalate e.2 ++ "\n")
          ++ String.join ([("tint:7", ["7"])].map
              fun e => "if" ++ " " ++ ",".intercalate e.2 ++ "\n")
          ++ String.join ([("tint:7", ["7"])].map
              fun e => "ds" ++ " " ++ ",".intercalate e.2 ++ "\n")
          ++ String.join ([("tint:7", ["7"])].map
              fun e => "df" ++ " " ++ ",".intercalate e.2 ++ "\n")
          ++ String.join ([("tint:7", ["7"])].map
              fun e => "lf" ++ " " ++ ",".intercalate e.2 ++ "\n")
          ++ "exec\n"
        ∧ ∀ slice : List String, slice ≠ [] → (∀ s ∈ slice, ∀ c ∈ s.data, c ≠ '%') →
            printSliceAsList slice = ",".intercalate slice ++ "\n") :=
  ⟨rfl, command_line_format [] [.TintValue] (fun _ t => t) ⟨fun _ => 7, 0⟩ _ _ _
    (fun _ t => List.Perm.refl t) rfl (by decide)⟩

/-! ## Scenario (C5) -/

/-- C5: when `generateUniqueIntsHash` is run with test number 0, the schema
tokens drawn are `sint`, `tint` and the map holds exactly the tuples `("5","-3")`
and `("-100","20")`, the text written is the header line
`begin TestUniqueIntsHash_0 UniqueIntsHash sint,tint`, then the groups `is`,
`ls`, `if`, `ds`, `df`, `lf` in that order, each made of the two value lists
`5,-3` and `-100,20` in the order the map is visited, then `exec`: 14 lines. -/
theorem generateUniqueIntsHash_scenario (order : Nat → TupleMap → TupleMap)
    (hord : ∀ k t, (order k t).Perm t) (r : Rand) (schema : List NValue) (r1 : Rand)
    (m : TupleMap) (r2 : Rand)
    (hs : createIntsOnlySchema r = .ok ((schema, ["sint", "tint"]), r1))
    (hm : insertLoop schema 10 [] r1 = .ok (m, r2))
    (hv : (m.map Prod.snd).Perm [["5", "-3"], ["-100", "20"]]) :
    generateUniqueIntsHash 0 order r
        = .ok ("begin TestUniqueIntsHash_0 UniqueIntsHash sint,tint\n"
            ++ renderLines (blockLines (valueLists (order 0 m)) (valueLists (order 1 m))
              (valueLists (order 2 m)) (valueLists (order 3 m)) (valueLists (order 4 m))
              (valueLists (order 5 m))), r2)
      ∧ (∀ k, (valueLists (order k m)).Perm ["5,-3", "-100,20"])
      ∧ lineCount ("begin TestUniqueIntsHash_0 UniqueIntsHash sint,tint\n"
            ++ renderLines (blockLines (valueLists (order 0 m)) (valueLists (order 1 m))
              (valueLists (order 2 m)) (valueLists (order 3 m)) (valueLists (order 4 m))
              (valueLists (order 5 m)))) = 14 := by
  have hmem : ∀ e ∈ m, e.2 = ["5", "-3"] ∨ e.2 = ["-100", "20"] := by
    intro e he
    have := hv.mem_iff.mp (List.mem_map_of_mem Prod.snd he)
    simpa using this
  have hfree : ∀ e ∈ m, e.2 ≠ [] ∧ ∀ s ∈ e.2, ∀ c ∈ s.data, c ≠ '%' := by
    intro e he
    rcases hmem e he with h | h <;> rw [h] <;> decide
  have hperm : ∀ k, (valueLists (order k m)).Perm ["5,-3", "-100,20"] := by
    intro k
    have h1 : (valueLists (order k m)).Perm (valueLists m) := valueLists_perm _ _ (hord k m)
    have h2 : valueLists m = (m.map Prod.snd).map (fun t => ",".intercalate t) := by
      simp [valueLists]
    have h3 := hv.map (fun t => ",".intercalate t)
    rw [← h2] at h3
    exact h1.trans h3
  have hrun := simpleUniqueGenerator_eq [] schema order r1 m r2 hm (fun k => hord k m) hfree
  refine ⟨?_, hperm, ?_⟩
  · unfold generateUniqueIntsHash
    rw [hs]
    simp only [hrun]
    rfl
  · rw [lineCount_append, lineCount_renderLines, blockLines_length,
      (hperm 0).length_eq, (hperm 1).length_eq, (hperm 2).length_eq, (hperm 3).length_eq,
      (hperm 4).length_eq, (hperm 5).length_eq]
    · decide
    · apply blockLines_no_newline
      intro v hv2
      have hin : v ∈ ["5,-3", "-100,20"] := by
        simp only [List.mem_append] at hv2
        rcases hv2 with ((((h | h) | h) | h) | h) | h
        · exact (hperm 0).mem_iff.mp h
        · exact (hperm 1).mem_iff.mp h
        · exact (hperm 2).mem_iff.mp h
        · exact (hperm 3).mem_iff.mp h
        · exact (hperm 4).mem_iff.mp h
        · exact (hperm 5).mem_iff.mp h
      simp only [List.mem_cons, List.mem_singleton, List.not_mem_nil, or_false] at hin
      rcases hin with h | h <;> rw [h] <;> decide

/-- Instance of C5: the draws `scenarioDraws` with the map visited in storage
order give the 14 lines of the scenario. -/
theorem generateUniqueIntsHash_scenario_witness :
    createIntsOnlySchema (scenarioRand 0)
        = .ok (([.SintValue, .TintValue], ["sint", "tint"]), scenarioRand 3)
      ∧ insertLoop [.SintValue, .TintValue] 10 [] (scenarioRand 3)
        = .ok ([("sint:5:tint:-3", ["5", "-3"]), ("sint:-100:tint:20", ["-100", "20"])],
            scenarioRand 43)
      ∧ generateUniqueIntsHash 0 (fun _ t => t) (scenarioRand 0)
        = .ok ("begin TestUniqueIntsHash_0 UniqueIntsHash sint,tint\n"
            ++ "is 5,-3\nis -100,20\nls 5,-3\nls -100,20\nif 5,-3\nif -100,20\n"
            ++ "ds 5,-3\nds -100,20\ndf 5,-3\ndf -100,20\nlf 5,-3\nlf -100,20\nexec\n",
            scenarioRand 43) :=
  ⟨rfl, rfl,
    (generateUniqueIntsHash_scenario (fun _ t => t) (fun _ t => List.Perm.refl t)
      (scenarioRand 0) [.SintValue, .TintValue] (scenarioRand 3)
      [("sint:5:tint:-3", ["5", "-3"]), ("sint:-100:tint:20", ["-100", "20"])]
      (scenarioRand 43) rfl rfl (List.Perm.refl _)).1⟩

/-! ## Strings (C11, C12) -/

theorem stringsJoin_empty_eq_join (ws : List String) : stringsJoin ws "" = String.join ws := by
  apply String.ext
  rw [join_empty_data, String.data_join]

theorem strValue_create_four_eq (r : Rand) :
    StrValue.Create 4 r
      = .ok (stringsJoin ((List.range 4).map
            (fun j => substrs4.getD (r.seq (r.pos + j) % 2 ^ 63 % substrs4.length) "")) "",
          ⟨r.seq, r.pos + 4⟩) := by
  have h := fill_spec substrs4 (by simp [substrs4]) 4 0 (List.replicate 4 "") r (by simp)
  unfold StrValue.Create
  rw [if_neg (by decide), if_pos rfl]
  simp only [h, List.take_zero, List.nil_append]

theorem substrs4_letters : ∀ w ∈ substrs4, ∀ c ∈ w.data, c ∈ ['a', 'b', 'c', 'd'] := by decide

theorem substrs4_length_one : ∀ w ∈ substrs4, w.data.length = 1 := by decide

theorem substrs4_letterIndex :
    ∀ c ∈ ['a', 'b', 'c', 'd'], substrs4.getD (letterIndex c % 2 ^ 63 % substrs4.length) ""
      = ⟨[c]⟩ := by decide

theorem join_data_length_of_unit (ws : List String) (h : ∀ w ∈ ws, w.data.length = 1) :
    (ws.map String.data).flatten.length = ws.length := by
  induction ws with
  | nil => rfl
  | cons w rest ih =>
    simp only [List.map_cons, List.flatten_cons, List.length_append, List.length_cons]
    rw [ih (fun x hx => h x (by simp [hx])), h w (by simp)]
    omega

/-- C11: for every sequence of draws the literal of `StrValue{4}.Create` has
length exactly 4 and all its characters are among `a`, `b`, `c`, `d`; conversely
every string of four such characters is the literal of some sequence of draws. -/
theorem strValue_four_literals (r : Rand) :
    (∃ lit r1, StrValue.Create 4 r = .ok (lit, r1) ∧ lit.length = 4
        ∧ ∀ c ∈ lit.data, c ∈ ['a', 'b', 'c', 'd'])
      ∧ ∀ s : String, s.length = 4 → (∀ c ∈ s.data, c ∈ ['a', 'b', 'c', 'd']) →
          ∃ r0 r1, StrValue.Create 4 r0 = .ok (s, r1) := by
  constructor
  · obtain ⟨ws, hrun, hlen, hmem⟩ := strValue_create_four r
    refine ⟨_, _, hrun, ?_, ?_⟩
    · show (stringsJoin ws "").data.length = 4
      rw [join_empty_data,
        join_data_length_of_unit ws (fun w hw => substrs4_length_one w (hmem w hw)), hlen]
    · intro c hc
      rw [join_empty_data] at hc
      obtain ⟨cs, hcs, hin⟩ := List.mem_flatten.mp hc
      obtain ⟨w, hw, rfl⟩ := List.mem_map.mp hcs
      exact substrs4_letters w (hmem w hw) c hin
  · intro s hlen hs
    obtain ⟨cs⟩ := s
    have hl : cs.length = 4 := hlen
    match cs, hl, hs with
    | [c0, c1, c2, c3], _, hs =>
      refine ⟨⟨fun i => letterIndex ([c0, c1, c2, c3].getD i 'a'), 0⟩,
        ⟨fun i => letterIndex ([c0, c1, c2, c3].getD i 'a'), 0 + 4⟩, ?_⟩
      rw [strValue_create_four_eq]
      have h0 := substrs4_letterIndex c0 (hs c0 (by simp))
      have h1 := substrs4_letterIndex c1 (hs c1 (by simp))
      have h2 := substrs4_letterIndex c2 (hs c2 (by simp))
      have h3 := substrs4_letterIndex c3 (hs c3 (by simp))
      have hjoin : stringsJoin ((List.range 4).map (fun j => substrs4.getD
          (letterIndex ([c0, c1, c2, c3].getD (0 + j) 'a') % 2 ^ 63 % substrs4.length) "")) ""
          = ⟨[c0, c1, c2, c3]⟩ := by
        apply String.ext
        rw [join_empty_data]
        simp only [List.range, List.range.loop, List.map_cons, List.map_nil, Nat.add_zero,
          Nat.zero_add, List.getD_cons_zero, List.getD_cons_succ, h0, h1, h2, h3]
        rfl
      rw [hjoin]

/-- Instance of C11: the literal `adcb` of the scenario is reached. -/
theorem strValue_four_literals_witness :
    "adcb".length = 4 ∧ (∀ c ∈ "adcb".data, c ∈ ['a', 'b', 'c', 'd'])
      ∧ ∃ r0 r1, StrValue.Create 4 r0 = .ok ("adcb", r1) :=
  ⟨by decide, by decide,
    (strValue_four_literals ⟨fun _ => 0, 0⟩).2 "adcb" (by decide) (by decide)⟩

theorem substrs128_ne_empty : ∀ w ∈ substrs128, w.data ≠ [] := by decide

/-- C12: for every sequence of draws the literal of `StrValue{128}.Create` is the
concatenation, without separator, of `n` words of the 27-word dictionary with
`1 ≤ n ≤ 10`; it is not empty and each of its characters occurs in a word of
the dictionary. -/
theorem strValue_big_literals (r : Rand) :
    ∃ ws r1, StrValue.Create 128 r = .ok (String.join ws, r1)
      ∧ 1 ≤ ws.length ∧ ws.length ≤ 10 ∧ (∀ w ∈ ws, w ∈ substrs128)
      ∧ substrs128.length = 27
      ∧ String.join ws ≠ ""
      ∧ ∀ c ∈ (String.join ws).data, ∃ w ∈ substrs128, c ∈ w.data := by
  obtain ⟨ws, hrun, hlen, hmem⟩ := strValue_create_big r
  rw [stringsJoin_empty_eq_join] at hrun
  refine ⟨ws, _, hrun, by omega, by omega, hmem, rfl, ?_, ?_⟩
  · intro he
    have hd : (String.join ws).data = [] := by rw [he]
    rw [String.data_join] at hd
    obtain ⟨w, hw⟩ := List.exists_mem_of_length_pos (show 0 < ws.length by omega)
    have hnil := List.flatten_eq_nil_iff.mp hd w.data (List.mem_map_of_mem _ hw)
    exact substrs128_ne_empty w (hmem w hw) hnil
  · intro c hc
    rw [String.data_join] at hc
    obtain ⟨cs, hcs, hin⟩ := List.mem_flatten.mp hc
    obtain ⟨w, hw, rfl⟩ := List.mem_map.mp hcs
    exact ⟨w, hmem w hw, hin⟩

/-! ## The factory and the fatal conditions (C14, C15) -/

theorem nvalueFactory_error_iff (token : String) :
    (∃ e, nvalueFactory token = .error e)
      ↔ token ∉ ["int", "bint", "sint", "tint", "dec", "str4", "str128"] := by
  unfold nvalueFactory
  by_cases h1 : token = "int"
  · simp [h1]
  by_cases h2 : token = "bint"
  · simp [h2]
  by_cases h3 : token = "sint"
  · simp [h3]
  by_cases h4 : token = "tint"
  · simp [h4]
  by_cases h5 : token = "dec"
  · simp [h5]
  by_cases h6 : token = "str4"
  · simp [h6]
  by_cases h7 : token = "str128"
  · simp [h7]
  simp [h1, h2, h3, h4, h5, h6, h7]

theorem nvalueFactory_error_eq (token : String)
    (h : token ∉ ["int", "bint", "sint", "tint", "dec", "str4", "str128"]) :
    nvalueFactory token = .error token := by
  simp only [List.mem_cons, List.mem_singleton, List.not_mem_nil, or_false, not_or] at h
  obtain ⟨h1, h2, h3, h4, h5, h6, h7⟩ := h
  simp [nvalueFactory, h1, h2, h3, h4, h5, h6, h7]

/-- C14: `nvalueFactory(token)` aborts exactly when `token` is none of the seven
tokens (the abort carries the token); for each of the seven it returns the
corresponding value type, `str4` giving a `StrValue` of size 4 and `str128` one
of size 128. -/
theorem nvalueFactory_fails_iff_unknown (token : String) :
    ((∃ e, nvalueFactory token = .error e)
        ↔ token ∉ ["int", "bint", "sint", "tint", "dec", "str4", "str128"])
      ∧ (token ∉ ["int", "bint", "sint", "tint", "dec", "str4", "str128"] →
          nvalueFactory token = .error token)
      ∧ nvalueFactory "int" = .ok .IntValue
      ∧ nvalueFactory "bint" = .ok .BintValue
      ∧ nvalueFactory "sint" = .ok .SintValue
      ∧ nvalueFactory "tint" = .ok .TintValue
      ∧ nvalueFactory "dec" = .ok .DecValue
      ∧ nvalueFactory "str4" = .ok (.StrValue 4)
      ∧ nvalueFactory "str128" = .ok (.StrValue 128) :=
  ⟨nvalueFactory_error_iff token, nvalueFactory_error_eq token, rfl, rfl, rfl, rfl, rfl, rfl,
    rfl⟩

/-- Instance of C14: the unknown token `float` aborts the factory. -/
theorem nvalueFactory_fails_iff_unknown_witness :
    "float" ∉ ["int", "bint", "sint", "tint", "dec", "str4", "str128"]
      ∧ nvalueFactory "float" = .error "float" :=
  ⟨by decide, (nvalueFactory_fails_iff_unknown "float").2.1 (by decide)⟩

theorem strValue_create_error_iff (size : Int) (r : Rand) :
    (∃ e, StrValue.Create size r = .error e) ↔ (size ≠ 4 ∧ size ≠ 128) := by
  constructor
  · rintro ⟨e, he⟩
    refine ⟨?_, ?_⟩
    · intro h
      subst h
      obtain ⟨ws, hrun, -⟩ := strValue_create_four r
      rw [hrun] at he
      exact absurd he (by simp)
    · intro h
      subst h
      obtain ⟨ws, hrun, -⟩ := strValue_create_big r
      rw [hrun] at he
      exact absurd he (by simp)
  · rintro ⟨h4, h128⟩
    exact ⟨"Invalid string size.", by simp [StrValue.Create, h4, h128]⟩

theorem nvalueFactory_str_sizes (token : String) (size : Int)
    (h : nvalueFactory token = .ok (.StrValue size)) : size = 4 ∨ size = 128 :=
  nvalueFactory_wellFormed token _ h

theorem createTuple_ok (schema : List NValue) (hwf : ∀ nv ∈ schema, nv.WellFormed)
    (r : Rand) : ∃ tuple r1, createTuple schema r = .ok (tuple, r1) := by
  obtain ⟨tuple, r1, h, -⟩ := createColumns_ok schema hwf r
  exact ⟨tuple, r1, (createTuple_eq schema r).trans h⟩

/-- C15: neither fatal condition is reachable from the pipeline.  For every
sequence of draws `createSchema` and `createIntsOnlySchema` return a schema
(no index out of range, no abort of the factory), and `createTuple` returns a
tuple for every schema they return, whatever the draws.  A `StrValue` aborts
exactly when its size is neither 4 nor 128, and the factory builds no other
size. -/
theorem fatal_conditions_unreachable (r : Rand) :
    (∃ schema abbrevs r1, createSchema r = .ok ((schema, abbrevs), r1)
        ∧ ∀ r2, ∃ tuple r3, createTuple schema r2 = .ok (tuple, r3))
      ∧ (∃ schema abbrevs r1, createIntsOnlySchema r = .ok ((schema, abbrevs), r1)
        ∧ ∀ r2, ∃ tuple r3, createTuple schema r2 = .ok (tuple, r3))
      ∧ (∀ d : Nat, d % voltIdxTypes.length < voltIdxTypes.length
          ∧ d % voltIdxIntTypes.length < voltIdxIntTypes.length)
      ∧ (∀ (size : Int) (r0 : Rand),
          (∃ e, StrValue.Create size r0 = .error e) ↔ (size ≠ 4 ∧ size ≠ 128))
      ∧ (∀ (size : Int) (r0 : Rand), size ≠ 4 → size ≠ 128 →
          StrValue.Create size r0 = .error "Invalid string size.")
      ∧ ∀ (token : String) (size : Int),
          nvalueFactory token = .ok (.StrValue size) → size = 4 ∨ size = 128 := by
  refine ⟨?_, ?_, fun d => ⟨Nat.mod_lt _ (by decide), Nat.mod_lt _ (by decide)⟩,
    strValue_create_error_iff, ?_, nvalueFactory_str_sizes⟩
  · obtain ⟨s, a, hrun, -, -, -, hwf⟩ := createSchema_spec r
    exact ⟨s, a, _, hrun, createTuple_ok s hwf⟩
  · obtain ⟨s, a, hrun, -, -, -, hwf⟩ := createIntsOnlySchema_spec r
    exact ⟨s, a, _, hrun, createTuple_ok s hwf⟩
  · intro size r0 h4 h128
    simp [StrValue.Create, h4, h128]

/-- Instance of C15 on the constant stream of draws 5 (a schema of six `str4`
columns), with a `StrValue` of size 5 as the aborting case. -/
theorem fatal_conditions_unreachable_witness :
    (∃ schema abbrevs r1, createSchema ⟨fun _ => 5, 0⟩ = .ok ((schema, abbrevs), r1)
        ∧ ∀ r2, ∃ tuple r3, createTuple schema r2 = .ok (tuple, r3))
      ∧ StrValue.Create 5 ⟨fun _ => 5, 0⟩ = .error "Invalid string size." :=
  ⟨(fatal_conditions_unreachable ⟨fun _ => 5, 0⟩).1,
    (fatal_conditions_unreachable ⟨fun _ => 5, 0⟩).2.2.2.2.1 5 ⟨fun _ => 5, 0⟩ (by decide)
      (by decide)⟩

/-! ## Sign policy and range of the small integers (C16, C20) -/

theorem minus_repr_ne_repr (a b : Nat) : "-" ++ toString a ≠ toString b := by
  intro h
  have hb := repr_isDigit b '-' (by rw [← h]; simp)
  exact absurd hb (by decide)

theorem minus_repr_inj (a b : Nat) (h : "-" ++ toString a = "-" ++ toString b) : a = b := by
  have h1 := toInt?_neg_repr a
  rw [h, toInt?_neg_repr b] at h1
  simp only [Option.some.injEq, neg_inj, Nat.cast_inj] at h1
  exact h1.symm

theorem repr_inj (a b : Nat) (h : toString a = toString b) : a = b := by
  have h1 := toInt?_repr a
  rw [h, toInt?_repr b] at h1
  simp only [Option.some.injEq, Nat.cast_inj] at h1
  exact h1.symm

/-- The literal of a small integer with magnitude `v` and sign draw `s`. -/
theorem signed_literal_policy (v s : Nat) (lit : String)
    (h : lit = if v ≠ 0 then (if s < 5 then "-" else "") ++ toString v else toString v) :
    (lit = "-" ++ toString v ↔ (v ≠ 0 ∧ s < 5))
      ∧ (¬ (v ≠ 0 ∧ s < 5) → lit = toString v)
      ∧ (v = 0 → lit = "0")
      ∧ lit ≠ "-0" := by
  have hpos : ¬ (v ≠ 0 ∧ s < 5) → lit = toString v := by
    intro hn
    by_cases hv : v ≠ 0
    · have hs : ¬ s < 5 := fun hs => hn ⟨hv, hs⟩
      rw [h, if_pos hv, if_neg hs, String.empty_append]
    · rw [h, if_neg hv]
  have hneg : (v ≠ 0 ∧ s < 5) → lit = "-" ++ toString v := by
    rintro ⟨hv, hs⟩
    rw [h, if_pos hv, if_pos hs]
  refine ⟨⟨?_, hneg⟩, hpos, ?_, ?_⟩
  · intro hl
    by_contra hn
    exact minus_repr_ne_repr v v (hl.symm.trans (hpos hn))
  · intro hv
    rw [hpos (fun hc => hc.1 hv), hv]
    rfl
  · intro hl
    by_cases hc : v ≠ 0 ∧ s < 5
    · have h0 : "-" ++ toString v = "-" ++ toString 0 := (hneg hc).symm.trans hl
      exact hc.1 (minus_repr_inj v 0 h0)
    · have h0 : "-" ++ toString 0 = toString v := hl.symm.trans (hpos hc)
      exact minus_repr_ne_repr 0 v h0

/-- C16: with magnitude draw `v` and sign draw `s`, the literal of
`SintValue.Create` (`v` below `0x7FFF`) and of `TintValue.Create` (`v` below
`0x7F`) is `"-"` followed by the decimal of `v` exactly when `v ≠ 0` and
`s < 5`, and the plain decimal of `v` otherwise; a zero magnitude gives `"0"`,
and `"-0"` is never produced. -/
theorem small_int_sign_policy (r : Rand) :
    (((SintValue.Create r).1 = "-" ++ toString (r.seq r.pos % 0x7FFF)
          ↔ (r.seq r.pos % 0x7FFF ≠ 0 ∧ r.seq (r.pos + 1) % 10 < 5))
        ∧ (¬ (r.seq r.pos % 0x7FFF ≠ 0 ∧ r.seq (r.pos + 1) % 10 < 5) →
            (SintValue.Create r).1 = toString (r.seq r.pos % 0x7FFF))
        ∧ (r.seq r.pos % 0x7FFF = 0 → (SintValue.Create r).1 = "0")
        ∧ (SintValue.Create r).1 ≠ "-0")
      ∧ (((TintValue.Create r).1 = "-" ++ toString (r.seq r.pos % 0x7F)
          ↔ (r.seq r.pos % 0x7F ≠ 0 ∧ r.seq (r.pos + 1) % 10 < 5))
        ∧ (¬ (r.seq r.pos % 0x7F ≠ 0 ∧ r.seq (r.pos + 1) % 10 < 5) →
            (TintValue.Create r).1 = toString (r.seq r.pos % 0x7F))
        ∧ (r.seq r.pos % 0x7F = 0 → (TintValue.Create r).1 = "0")
        ∧ (TintValue.Create r).1 ≠ "-0") := by
  constructor
  · apply signed_literal_policy (r.seq r.pos % 0x7FFF) (r.seq (r.pos + 1) % 10)
    rw [sintValue_create_eq]
    split <;> rfl
  · apply signed_literal_policy (r.seq r.pos % 0x7F) (r.seq (r.pos + 1) % 10)
    rw [tintValue_create_eq]
    split <;> rfl

/-- Instance of C16: magnitude 0 with a sign draw below 5 gives `"0"`. -/
theorem small_int_sign_policy_witness :
    (⟨fun _ => 0, 0⟩ : Rand).seq 0 % 0x7FFF = 0
      ∧ (SintValue.Create ⟨fun _ => 0, 0⟩).1 = "0" :=
  ⟨rfl, (small_int_sign_policy ⟨fun _ => 0, 0⟩).1.2.2.1 rfl⟩

theorem signed_literal_parse (v s : Nat) :
    ((if v ≠ 0 then (if s < 5 then "-" else "") ++ toString v else toString v).toInt?
        = some (v : Int))
      ∨ ((if v ≠ 0 then (if s < 5 then "-" else "") ++ toString v else toString v).toInt?
        = some (-(v : Int))) := by
  by_cases hv : v ≠ 0
  · by_cases hs : s < 5
    · right; rw [if_pos hv, if_pos hs]; exact toInt?_neg_repr v
    · left; rw [if_pos hv, if_neg hs, String.empty_append]; exact toInt?_repr v
  · left; rw [if_neg hv]; exact toInt?_repr v

theorem sintValue_parse (r : Rand) :
    ∃ v : Int, (SintValue.Create r).1.toInt? = some v
      ∧ v.natAbs = r.seq r.pos % 0x7FFF := by
  have h := signed_literal_parse (r.seq r.pos % 0x7FFF) (r.seq (r.pos + 1) % 10)
  have e : (SintValue.Create r).1
      = if r.seq r.pos % 0x7FFF ≠ 0 then
          (if r.seq (r.pos + 1) % 10 < 5 then "-" else "") ++ toString (r.seq r.pos % 0x7FFF)
        else toString (r.seq r.pos % 0x7FFF) := by
    rw [sintValue_create_eq]; split <;> rfl
  rw [e]
  rcases h with h | h
  · exact ⟨_, h, Int.natAbs_ofNat _⟩
  · exact ⟨_, h, by rw [Int.natAbs_neg]; exact Int.natAbs_ofNat _⟩

theorem tintValue_parse (r : Rand) :
    ∃ v : Int, (TintValue.Create r).1.toInt? = some v
      ∧ v.natAbs = r.seq r.pos % 0x7F := by
  have h := signed_literal_parse (r.seq r.pos % 0x7F) (r.seq (r.pos + 1) % 10)
  have e : (TintValue.Create r).1
      = if r.seq r.pos % 0x7F ≠ 0 then
          (if r.seq (r.pos + 1) % 10 < 5 then "-" else "") ++ toString (r.seq r.pos % 0x7F)
        else toString (r.seq r.pos % 0x7F) := by
    rw [tintValue_create_eq]; split <;> rfl
  rw [e]
  rcases h with h | h
  · exact ⟨_, h, Int.natAbs_ofNat _⟩
  · exact ⟨_, h, by rw [Int.natAbs_neg]; exact Int.natAbs_ofNat _⟩

/-- C20: the upper ends of the small-integer domains are never generated.  The
magnitude of a `SintValue` literal is at most `0x7FFE` and that of a `TintValue`
literal at most `0x7E`; every magnitude up to that bound is produced by some
draw; the literals `32767`, `-32767` (resp. `127`, `-127`) are produced by
none. -/
theorem small_int_upper_end (r : Rand) :
    (∃ v : Int, (SintValue.Create r).1.toInt? = some v ∧ v.natAbs ≤ 0x7FFE)
      ∧ (∃ v : Int, (TintValue.Create r).1.toInt? = some v ∧ v.natAbs ≤ 0x7E)
      ∧ (∀ k : Fin 0x7FFF, ∃ r0 v, (SintValue.Create r0).1.toInt? = some v
          ∧ v.natAbs = k.val)
      ∧ (∀ k : Fin 0x7F, ∃ r0 v, (TintValue.Create r0).1.toInt? = some v
          ∧ v.natAbs = k.val)
      ∧ (SintValue.Create r).1 ≠ "32767" ∧ (SintValue.Create r).1 ≠ "-32767"
      ∧ (TintValue.Create r).1 ≠ "127" ∧ (TintValue.Create r).1 ≠ "-127" := by
  obtain ⟨vs, hs, hsabs⟩ := sintValue_parse r
  obtain ⟨vt, ht, htabs⟩ := tintValue_parse r
  have hslt : r.seq r.pos % 0x7FFF < 0x7FFF := Nat.mod_lt _ (by decide)
  have htlt : r.seq r.pos % 0x7F < 0x7F := Nat.mod_lt _ (by decide)
  refine ⟨⟨vs, hs, by omega⟩, ⟨vt, ht, by omega⟩, ?_, ?_, ?_, ?_, ?_, ?_⟩
  · intro k
    obtain ⟨v, hv, habs⟩ := sintValue_parse ⟨fun _ => k.val, 0⟩
    exact ⟨_, v, hv, by rw [habs]; exact Nat.mod_eq_of_lt k.isLt⟩
  · intro k
    obtain ⟨v, hv, habs⟩ := tintValue_parse ⟨fun _ => k.val, 0⟩
    exact ⟨_, v, hv, by rw [habs]; exact Nat.mod_eq_of_lt k.isLt⟩
  · intro h
    have h1 : (SintValue.Create r).1.toInt? = some ((32767 : Nat) : Int) := by
      rw [h]; exact toInt?_repr 32767
    rw [hs] at h1
    simp only [Option.some.injEq] at h1
    rw [h1] at hsabs
    simp only [Int.natAbs_ofNat] at hsabs
    omega
  · intro h
    have h1 : (SintValue.Create r).1.toInt? = some (-((32767 : Nat) : Int)) := by
      rw [h]; exact toInt?_neg_repr 32767
    rw [hs] at h1
    simp only [Option.some.injEq] at h1
    rw [h1] at hsabs
    simp only [Int.natAbs_neg, Int.natAbs_ofNat] at hsabs
    omega
  · intro h
    have h1 : (TintValue.Create r).1.toInt? = some ((127 : Nat) : Int) := by
      rw [h]; exact toInt?_repr 127
    rw [ht] at h1
    simp only [Option.some.injEq] at h1
    rw [h1] at htabs
    simp only [Int.natAbs_ofNat] at htabs
    omega
  · intro h
    have h1 : (TintValue.Create r).1.toInt? = some (-((127 : Nat) : Int)) := by
      rw [h]; exact toInt?_neg_repr 127
    rw [ht] at h1
    simp only [Option.some.injEq] at h1
    rw [h1] at htabs
    simp only [Int.natAbs_neg, Int.natAbs_ofNat] at htabs
    omega

/-! ## Decimal literals (C13) -/

theorem repr_ne_nil (n : Nat) : (toString n).data ≠ [] := by
  rw [repr_data]; exact toDigitsCore_ne_nil n n

theorem int_repr_cases (v : Int) :
    ∃ sign ip : List Char, (toString v).data = sign ++ ip ∧ (sign = [] ∨ sign = ['-'])
      ∧ ip ≠ [] ∧ ∀ c ∈ ip, c.isDigit = true := by
  cases v with
  | ofNat m => exact ⟨[], (toString m).data, rfl, Or.inl rfl, repr_ne_nil m, repr_isDigit m⟩
  | negSucc m =>
    exact ⟨['-'], (toString (m + 1)).data, rfl, Or.inr rfl, repr_ne_nil (m + 1),
      repr_isDigit (m + 1)⟩

theorem repr_length_le_eight (f : Nat) (h : f < 99999999) : (toString f).data.length ≤ 8 :=
  Nat.repr_length f 8 (by decide) (by omega)

/-- C13: for every sequence of draws the literal of `DecValue.Create` matches
`-?\d+\.\d{1,8}` in full; it is the decimal of the signed integer part, a dot,
and the decimal of the fraction draw, which is below 99999999 and carries no
sign. -/
theorem decValue_matches_pattern (r : Rand) :
    MatchesDecimal (DecValue.Create r).1
      ∧ ∃ (v : Int) (f : Nat), (DecValue.Create r).1 = toString v ++ "." ++ toString f
        ∧ f < 99999999 ∧ (∀ c ∈ (toString f).data, c.isDigit = true)
        ∧ 1 ≤ (toString f).length ∧ (toString f).length ≤ 8 := by
  have hf : r.seq (r.pos + 2) % 99999999 < 99999999 := Nat.mod_lt _ (by decide)
  have hlen := repr_length_le_eight _ hf
  have hne := repr_ne_nil (r.seq (r.pos + 2) % 99999999)
  have hpos : 1 ≤ (toString (r.seq (r.pos + 2) % 99999999)).data.length :=
    List.length_pos.mpr hne
  rw [decValue_create_eq]
  constructor
  · obtain ⟨sign, ip, hdata, hsign, hip, hdig⟩ := int_repr_cases
      (wrapInt ((r.seq r.pos % 2 ^ 63 : Nat)
        * (if r.seq (r.pos + 1) % 2 ^ 63 % 2 = 0 then 1 else -1)))
    refine ⟨sign, ip, (toString (r.seq (r.pos + 2) % 99999999)).data, ?_, hsign, hip, hdig,
      hpos, hlen, repr_isDigit _⟩
    simp only [String.data_append, hdata]
    show sign ++ ip ++ ['.'] ++ (toString (r.seq (r.pos + 2) % 99999999)).data = _
    simp
  · exact ⟨_, r.seq (r.pos + 2) % 99999999, rfl, hf, repr_isDigit _, hpos, hlen⟩

/-! ## Canonical integer literals (C18) -/

theorem digitChar_ne_zero (d : Nat) (h0 : 0 < d) (h : d < 10) : Nat.digitChar d ≠ '0' := by
  interval_cases d <;> decide

theorem toDigitsCore_head (fuel n : Nat) (h : n < fuel) (h0 : 0 < n) :
    ∃ d ds, Nat.toDigitsCore 10 fuel n [] = d :: ds ∧ d.isDigit = true ∧ d ≠ '0'
      ∧ ∀ c ∈ ds, c.isDigit = true := by
  induction fuel generalizing n with
  | zero => omega
  | succ fuel ih =>
    simp only [Nat.toDigitsCore]
    split
    · rename_i hq
      have hlt : n < 10 := by omega
      refine ⟨Nat.digitChar (n % 10), [], rfl, digitChar_isDigit _ (Nat.mod_lt _ (by decide)),
        ?_, by simp⟩
      rw [Nat.mod_eq_of_lt hlt]
      exact digitChar_ne_zero n h0 hlt
    · rename_i hq
      obtain ⟨d, ds, he, hd, hd0, hds⟩ := ih (n / 10) (by omega) (by omega)
      rw [toDigitsCore_append, he]
      refine ⟨d, ds ++ [Nat.digitChar (n % 10)], rfl, hd, hd0, ?_⟩
      intro c hc
      rcases List.mem_append.mp hc with h1 | h1
      · exact hds c h1
      · simp only [List.mem_singleton] at h1
        rw [h1]
        exact digitChar_isDigit _ (Nat.mod_lt _ (by decide))

theorem repr_head (n : Nat) (h0 : 0 < n) :
    ∃ d ds, (toString n).data = d :: ds ∧ d.isDigit = true ∧ d ≠ '0'
      ∧ ∀ c ∈ ds, c.isDigit = true := by
  rw [repr_data]
  exact toDigitsCore_head (n + 1) n (by omega) h0

theorem int_repr_canonical (v : Int) : CanonicalDecimal (toString v).data := by
  cases v with
  | ofNat m =>
    cases m with
    | zero => exact Or.inl rfl
    | succ k =>
      obtain ⟨d, ds, he, hd, hd0, hds⟩ := repr_head (k + 1) (by omega)
      exact Or.inr ⟨[], d, ds, he, Or.inl rfl, hd, hd0, hds⟩
  | negSucc m =>
    obtain ⟨d, ds, he, hd, hd0, hds⟩ := repr_head (m + 1) (by omega)
    refine Or.inr ⟨['-'], d, ds, ?_, Or.inr rfl, hd, hd0, hds⟩
    show '-' :: (toString (m + 1)).data = _
    rw [he]
    rfl

theorem int_repr_toInt? (v : Int) : (toString v).toInt? = some v := by
  cases v with
  | ofNat m => exact toInt?_repr m
  | negSucc m => exact toInt?_neg_repr (m + 1)

theorem int_repr_inj (v w : Int) (h : toString v = toString w) : v = w := by
  have h1 := int_repr_toInt? v
  rw [h, int_repr_toInt? w] at h1
  exact (Option.some.inj h1).symm

/-- The product of a non-negative draw and a sign does not overflow. -/
theorem wrapInt_sign (d : Nat) (hd : d < 2 ^ 63) (s : Int) (hs : s = 1 ∨ s = -1) :
    wrapInt ((d : Int) * s) = (d : Int) * s := by
  unfold wrapInt
  rcases hs with h | h <;> subst h <;> omega

theorem sign_cases (n : Nat) : (if n % 2 = 0 then (1 : Int) else -1) = 1
    ∨ (if n % 2 = 0 then (1 : Int) else -1) = -1 := by
  split
  · exact Or.inl rfl
  · exact Or.inr rfl

theorem intValue_literal (r : Rand) :
    (IntValue.Create r).1
      = toString (((r.seq r.pos % 2 ^ 63 : Nat) : Int)
          * (if r.seq (r.pos + 1) % 2 ^ 63 % 2 = 0 then 1 else -1)) := by
  rw [intValue_create_eq, wrapInt_sign _ (Nat.mod_lt _ (by decide)) _ (sign_cases _)]

theorem bintValue_literal (r : Rand) :
    (BintValue.Create r).1
      = toString (((r.seq r.pos % 2 ^ 63 : Nat) : Int)
          * (if r.seq (r.pos + 1) % 2 ^ 63 % 2 = 0 then 1 else -1)) := by
  rw [bintValue_create_eq, wrapInt_sign _ (Nat.mod_lt _ (by decide)) _ (sign_cases _)]

theorem signed_literal_int (v s : Nat) :
    ∃ w : Int, (if v ≠ 0 then (if s < 5 then "-" else "") ++ toString v else toString v)
      = toString w := by
  by_cases hv : v ≠ 0
  · by_cases hs : s < 5
    · rw [if_pos hv, if_pos hs]
      obtain ⟨k, hk⟩ := Nat.exists_eq_succ_of_ne_zero hv
      exact ⟨Int.negSucc k, by rw [hk]; rfl⟩
    · rw [if_pos hv, if_neg hs, String.empty_append]
      exact ⟨(v : Int), rfl⟩
  · rw [if_neg hv]
    exact ⟨(v : Int), rfl⟩

theorem sintValue_literal (r : Rand) : ∃ w : Int, (SintValue.Create r).1 = toString w := by
  obtain ⟨w, hw⟩ := signed_literal_int (r.seq r.pos % 0x7FFF) (r.seq (r.pos + 1) % 10)
  refine ⟨w, ?_⟩
  rw [← hw, sintValue_create_eq]
  split <;> rfl

theorem tintValue_literal (r : Rand) : ∃ w : Int, (TintValue.Create r).1 = toString w := by
  obtain ⟨w, hw⟩ := signed_literal_int (r.seq r.pos % 0x7F) (r.seq (r.pos + 1) % 10)
  refine ⟨w, ?_⟩
  rw [← hw, tintValue_create_eq]
  split <;> rfl

/-- Every literal of an integer value type is the decimal of an integer. -/
theorem integer_create_literal (nv : NValue) (hint : nv.IsInteger) (r : Rand) (lit : String)
    (r1 : Rand) (h : nv.Create r = .ok (lit, r1)) : ∃ w : Int, lit = toString w := by
  cases nv with
  | IntValue =>
    simp only [NValue.Create, Except.ok.injEq] at h
    exact ⟨_, (congrArg Prod.fst h).symm.trans (intValue_literal r)⟩
  | BintValue =>
    simp only [NValue.Create, Except.ok.injEq] at h
    exact ⟨_, (congrArg Prod.fst h).symm.trans (bintValue_literal r)⟩
  | SintValue =>
    simp only [NValue.Create, Except.ok.injEq] at h
    obtain ⟨w, hw⟩ := sintValue_literal r
    exact ⟨w, (congrArg Prod.fst h).symm.trans hw⟩
  | TintValue =>
    simp only [NValue.Create, Except.ok.injEq] at h
    obtain ⟨w, hw⟩ := tintValue_literal r
    exact ⟨w, (congrArg Prod.fst h).symm.trans hw⟩
  | DecValue => exact absurd hint (by simp [NValue.IsInteger])
  | StrValue size => exact absurd hint (by simp [NValue.IsInteger])

/-! ## Retained tuples -/

theorem candidateTuples_mem (schema : List NValue) :
    ∀ (n : Nat) (r : Rand) (cs : List (List String)) (r1 : Rand),
      candidateTuples schema n r = .ok (cs, r1) →
      ∀ t ∈ cs, ∃ ra rb, createTuple schema ra = .ok (t, rb) := by
  intro n
  induction n with
  | zero =>
    intro r cs r1 h
    simp only [candidateTuples, Except.ok.injEq, Prod.mk.injEq] at h
    obtain ⟨rfl, -⟩ := h
    simp
  | succ n ih =>
    intro r cs r1 h
    simp only [candidateTuples] at h
    cases hc : createTuple schema r with
    | error e => rw [hc] at h; exact absurd h (by simp)
    | ok p =>
      obtain ⟨t, ra⟩ := p
      rw [hc] at h
      simp only [] at h
      cases hr : candidateTuples schema n ra with
      | error e => rw [hr] at h; exact absurd h (by simp)
      | ok q =>
        obtain ⟨ts, rb⟩ := q
        rw [hr] at h
        simp only [Except.ok.injEq, Prod.mk.injEq] at h
        obtain ⟨rfl, -⟩ := h
        intro u hu
        rcases List.mem_cons.mp hu with h1 | h1
        · rw [h1]; exact ⟨r, ra, hc⟩
        · exact ih ra ts rb hr u h1

theorem createTuple_literals (schema : List NValue) (r : Rand) (t : List String) (r1 : Rand)
    (h : createTuple schema r = .ok (t, r1)) :
    t.length = schema.length ∧ ∀ (i : Nat) (h1 : i < schema.length) (h2 : i < t.length),
      ∃ ra rb, schema[i].Create ra = .ok (t[i], rb) := by
  obtain ⟨hlen, rs, -, -, hstep⟩ :=
    createColumns_chain schema r t r1 ((createTuple_eq schema r).symm.trans h)
  exact ⟨hlen, fun i h1 h2 => ⟨rs i, rs (i + 1), hstep i h1 h2⟩⟩

/-- An entry retained by the insertion loop is a created tuple under its
canonical key. -/
theorem insertLoop_entry (schema : List NValue) (r : Rand) (m : TupleMap) (r1 : Rand)
    (h : insertLoop schema 10 [] r = .ok (m, r1)) (e : String × List String) (he : e ∈ m) :
    tupleKey schema e.2 = .ok e.1 ∧ ∃ ra rb, createTuple schema ra = .ok (e.2, rb) := by
  obtain ⟨cs, hc, -, -, -, hmem, -⟩ := insertLoop_spec schema r m r1 h
  obtain ⟨pre, post, hcs, hk, -⟩ := (hmem e.1 e.2).mp he
  exact ⟨hk, candidateTuples_mem schema 10 r cs r1 hc e.2 (by rw [hcs]; simp)⟩

theorem insertLoop_tuples_distinct (schema : List NValue) (r : Rand) (m : TupleMap)
    (r1 : Rand) (h : insertLoop schema 10 [] r = .ok (m, r1))
    (e1 e2 : String × List String) (h1 : e1 ∈ m) (h2 : e2 ∈ m) (hne : e1 ≠ e2) :
    e1.2 ≠ e2.2 := by
  intro heq
  have k1 := (insertLoop_entry schema r m r1 h e1 h1).1
  have k2 := (insertLoop_entry schema r m r1 h e2 h2).1
  rw [heq, k2] at k1
  exact hne (Prod.ext (Except.ok.inj k1).symm heq)

theorem exists_index_ne (l1 l2 : List String) (hlen : l1.length = l2.length)
    (hne : l1 ≠ l2) : ∃ (i : Nat) (h1 : i < l1.length) (h2 : i < l2.length), l1[i] ≠ l2[i] := by
  by_contra hcon
  apply hne
  apply List.ext_getElem hlen
  intro i h1 h2
  by_contra hx
  exact hcon ⟨i, h1, h2, hx⟩

theorem abbrev_int_isInteger (nv : NValue) (h : nv.Abbrev ∈ voltIdxIntTypes) :
    nv.IsInteger := by
  cases nv with
  | DecValue => exact absurd h (by decide)
  | StrValue size =>
    exfalso
    simp only [voltIdxIntTypes, List.mem_cons, List.mem_singleton, List.not_mem_nil,
      or_false, NValue.Abbrev] at h
    rcases h with h | h | h | h <;>
      (have hd := congrArg String.data h
       simp only [String.data_append] at hd
       exact absurd hd (by simp))
  | _ => trivial

theorem createIntsOnlySchema_integer (r : Rand) (schema : List NValue)
    (abbrevs : List String) (r1 : Rand)
    (h : createIntsOnlySchema r = .ok ((schema, abbrevs), r1)) :
    ∀ nv ∈ schema, nv.IsInteger := by
  obtain ⟨s, a, hrun, -, hmap, hmem, -⟩ := createIntsOnlySchema_spec r
  rw [hrun] at h
  simp only [Except.ok.injEq, Prod.mk.injEq] at h
  obtain ⟨⟨rfl, rfl⟩, -⟩ := h
  intro nv hnv
  exact abbrev_int_isInteger nv (hmem _ (hmap ▸ List.mem_map_of_mem _ hnv))

/-! ## Integer literals denote distinct integers (C18) -/

theorem integer_literals_differ (nv : NValue) (hint : nv.IsInteger) (ra rb : Rand)
    (la lb : String) (ra1 rb1 : Rand) (ha : nv.Create ra = .ok (la, ra1))
    (hb : nv.Create rb = .ok (lb, rb1)) (hne : la ≠ lb) : la.toInt? ≠ lb.toInt? := by
  obtain ⟨v, hv⟩ := integer_create_literal nv hint ra la ra1 ha
  obtain ⟨w, hw⟩ := integer_create_literal nv hint rb lb rb1 hb
  rw [hv, hw, int_repr_toInt?, int_repr_toInt?]
  intro h
  apply hne
  rw [hv, hw, Option.some.inj h]

/-- C18: every literal of the four integer value types is the canonical decimal
of the integer it denotes (`0`, or an optional minus sign and digits without a
leading zero), and reads back as that integer; the products `rand.Int()*sign()`
and `rand.Int63()*sign()` do not overflow.  Two literals of one integer column
that differ as strings denote different integers, and in a block built on a
schema of `createIntsOnlySchema` two distinct retained tuples differ in the
integer value of at least one column (as in every block on a schema of only
integer value types). -/
theorem integer_literals_canonical (r : Rand) :
    (∀ nv : NValue, nv.IsInteger → ∀ (r0 : Rand) (lit : String) (r1 : Rand),
        nv.Create r0 = .ok (lit, r1) →
        ∃ v : Int, lit = toString v ∧ lit.toInt? = some v ∧ CanonicalDecimal lit.data)
      ∧ wrapInt (((r.seq r.pos % 2 ^ 63 : Nat) : Int)
            * (if r.seq (r.pos + 1) % 2 ^ 63 % 2 = 0 then 1 else -1))
          = ((r.seq r.pos % 2 ^ 63 : Nat) : Int)
            * (if r.seq (r.pos + 1) % 2 ^ 63 % 2 = 0 then 1 else -1)
      ∧ (IntValue.Create r).1
          = toString (((r.seq r.pos % 2 ^ 63 : Nat) : Int)
              * (if r.seq (r.pos + 1) % 2 ^ 63 % 2 = 0 then 1 else -1))
      ∧ (BintValue.Create r).1
          = toString (((r.seq r.pos % 2 ^ 63 : Nat) : Int)
              * (if r.seq (r.pos + 1) % 2 ^ 63 % 2 = 0 then 1 else -1))
      ∧ (∀ nv : NValue, nv.IsInteger → ∀ (ra rb : Rand) (la lb : String) (ra1 rb1 : Rand),
          nv.Create ra = .ok (la, ra1) → nv.Create rb = .ok (lb, rb1) → la ≠ lb →
          la.toInt? ≠ lb.toInt?)
      ∧ (∀ (schema : List NValue) (abbrevs : List String) (r1 : Rand),
          createIntsOnlySchema r = .ok ((schema, abbrevs), r1) →
          ∀ nv ∈ schema, nv.IsInteger)
      ∧ ∀ (schema : List NValue) (r1 : Rand) (m : TupleMap) (r2 : Rand),
          (∀ nv ∈ schema, nv.IsInteger) →
          insertLoop schema 10 [] r1 = .ok (m, r2) →
          ∀ e1 ∈ m, ∀ e2 ∈ m, e1 ≠ e2 →
            e1.2.length = e2.2.length
              ∧ ∃ (i : Nat) (h1 : i < e1.2.length) (h2 : i < e2.2.length),
                  e1.2[i].toInt? ≠ e2.2[i].toInt? := by
  refine ⟨?_, wrapInt_sign _ (Nat.mod_lt _ (by decide)) _ (sign_cases _), intValue_literal r,
    bintValue_literal r, integer_literals_differ, createIntsOnlySchema_integer r, ?_⟩
  · intro nv hint r0 lit r1 h
    obtain ⟨v, hv⟩ := integer_create_literal nv hint r0 lit r1 h
    exact ⟨v, hv, by rw [hv]; exact int_repr_toInt? v, by rw [hv]; exact int_repr_canonical v⟩
  · intro schema r1 m r2 hint hm e1 he1 e2 he2 hne
    obtain ⟨-, ra, rb, hc1⟩ := insertLoop_entry schema r1 m r2 hm e1 he1
    obtain ⟨-, rc, rd, hc2⟩ := insertLoop_entry schema r1 m r2 hm e2 he2
    obtain ⟨hl1, hlit1⟩ := createTuple_literals schema ra e1.2 rb hc1
    obtain ⟨hl2, hlit2⟩ := createTuple_literals schema rc e2.2 rd hc2
    have hlen : e1.2.length = e2.2.length := hl1.trans hl2.symm
    refine ⟨hlen, ?_⟩
    obtain ⟨i, h1, h2, hdiff⟩ := exists_index_ne e1.2 e2.2 hlen
      (insertLoop_tuples_distinct schema r1 m r2 hm e1 e2 he1 he2 hne)
    have hi : i < schema.length := by omega
    obtain ⟨sa, sb, hca⟩ := hlit1 i hi h1
    obtain ⟨sc, sd, hcb⟩ := hlit2 i hi h2
    exact ⟨i, h1, h2, integer_literals_differ schema[i] (hint _ (List.getElem_mem hi))
      sa sc _ _ sb sd hca hcb hdiff⟩

/-- Instance of C18: the `sint` literal of the constant stream of draws 7. -/
theorem integer_literals_canonical_witness :
    NValue.SintValue.IsInteger
      ∧ NValue.SintValue.Create ⟨fun _ => 7, 0⟩ = .ok ("7", ⟨fun _ => 7, 2⟩)
      ∧ ∃ v : Int, "7" = toString v ∧ "7".toInt? = some v ∧ CanonicalDecimal "7".data :=
  ⟨trivial, rfl,
    (integer_literals_canonical ⟨fun _ => 7, 0⟩).1 .SintValue trivial ⟨fun _ => 7, 0⟩ "7"
      ⟨fun _ => 7, 2⟩ rfl⟩

/-! ## Injectivity of the canonical key (C17) -/

theorem split_at_first (c : Char) (a a2 b b2 : List Char) (ha : c ∉ a) (ha2 : c ∉ a2)
    (h : a ++ c :: b = a2 ++ c :: b2) : a = a2 ∧ b = b2 := by
  induction a generalizing a2 with
  | nil =>
    cases a2 with
    | nil => simpa using h
    | cons x xs =>
      simp only [List.nil_append, List.cons_append, List.cons.injEq] at h
      exact absurd (by rw [h.1]; simp) ha2
  | cons y ys ih =>
    cases a2 with
    | nil =>
      simp only [List.nil_append, List.cons_append, List.cons.injEq] at h
      exact absurd (by rw [← h.1]; simp) ha
    | cons x xs =>
      simp only [List.cons_append, List.cons.injEq] at h
      obtain ⟨hxy, hrest⟩ := h
      obtain ⟨h1, h2⟩ := ih xs (fun hm => ha (by simp [hm])) (fun hm => ha2 (by simp [hm])) hrest
      exact ⟨by rw [hxy, h1], h2⟩

/-- Joining with a one-character separator is injective on lists of equal length
whose members do not contain the separator. -/
theorem intercalate_inj (sep : String) (c : Char) (hsep : sep.data = [c]) :
    ∀ (l1 l2 : List String), l1.length = l2.length →
      (∀ s ∈ l1, c ∉ s.data) → (∀ s ∈ l2, c ∉ s.data) →
      sep.intercalate l1 = sep.intercalate l2 → l1 = l2 := by
  intro l1
  induction l1 with
  | nil =>
    intro l2 hlen _ _ _
    exact (List.eq_nil_of_length_eq_zero hlen.symm).symm
  | cons a as ih =>
    intro l2 hlen h1 h2 heq
    cases l2 with
    | nil => simp at hlen
    | cons b bs =>
      have hlen2 : as.length = bs.length := by simpa using hlen
      cases as with
      | nil =>
        have hbs : bs = [] := List.eq_nil_of_length_eq_zero hlen2.symm
        subst hbs
        rw [intercalate_singleton, intercalate_singleton] at heq
        rw [heq]
      | cons a2 as2 =>
        cases bs with
        | nil => simp at hlen2
        | cons b2 bs2 =>
          rw [intercalate_cons_cons, intercalate_cons_cons] at heq
          have hd := congrArg String.data heq
          simp only [String.data_append, hsep, List.append_assoc, List.singleton_append] at hd
          obtain ⟨e1, e2⟩ := split_at_first c _ _ _ _ (h1 a (by simp)) (h2 b (by simp)) hd
          have hrest := ih (b2 :: bs2) hlen2 (fun s hs => h1 s (by simp [hs]))
            (fun s hs => h2 s (by simp [hs])) (String.ext e2)
          rw [String.ext e1, hrest]

theorem plainChar_ne_colon (c : Char) (h : plainChar c = true) : c ≠ ':' := by
  intro e; rw [e] at h; exact absurd h (by decide)

theorem abbrev_no_colon (nv : NValue) : ':' ∉ nv.Abbrev.data := by
  cases nv with
  | StrValue size =>
    intro h
    simp only [NValue.Abbrev, String.data_append, List.mem_append] at h
    rcases h with h | h
    · exact absurd h (by decide)
    · exact plainChar_ne_colon _ (int_repr_plain size _ h) rfl
  | _ => decide

theorem keyParts_length (schema : List NValue) :
    ∀ t : List String, t.length = schema.length →
      (keyParts schema t).length = 2 * schema.length := by
  induction schema with
  | nil => intro t _; cases t <;> rfl
  | cons nv rest ih =>
    intro t ht
    cases t with
    | nil => simp at ht
    | cons l u =>
      simp only [keyParts, List.length_cons, ih u (by simpa using ht)]
      omega

theorem keyParts_no_colon (schema : List NValue) :
    ∀ t : List String, (∀ lit ∈ t, ':' ∉ lit.data) →
      ∀ p ∈ keyParts schema t, ':' ∉ p.data := by
  induction schema with
  | nil => intro t _ p hp; cases t <;> simp [keyParts] at hp
  | cons nv rest ih =>
    intro t ht p hp
    cases t with
    | nil => simp [keyParts] at hp
    | cons l u =>
      simp only [keyParts, List.mem_cons] at hp
      rcases hp with h | h | h
      · rw [h]; exact abbrev_no_colon nv
      · rw [h]; exact ht l (by simp)
      · exact ih u (fun x hx => ht x (by simp [hx])) p h

theorem keyParts_inj (schema : List NValue) :
    ∀ t1 t2 : List String, t1.length = schema.length → t2.length = schema.length →
      keyParts schema t1 = keyParts schema t2 → t1 = t2 := by
  induction schema with
  | nil =>
    intro t1 t2 h1 h2 _
    rw [List.eq_nil_of_length_eq_zero h1, List.eq_nil_of_length_eq_zero h2]
  | cons nv rest ih =>
    intro t1 t2 h1 h2 h
    cases t1 with
    | nil => simp at h1
    | cons l1 u1 =>
      cases t2 with
      | nil => simp at h2
      | cons l2 u2 =>
        simp only [keyParts, List.cons.injEq, true_and] at h
        rw [h.1, ih u1 u2 (by simpa using h1) (by simpa using h2) h.2]

theorem keyOf_inj (schema : List NValue) (t1 t2 : List String)
    (h1 : t1.length = schema.length) (h2 : t2.length = schema.length)
    (hc1 : ∀ lit ∈ t1, ':' ∉ lit.data) (hc2 : ∀ lit ∈ t2, ':' ∉ lit.data)
    (hk : keyOf schema t1 = keyOf schema t2) : t1 = t2 :=
  keyParts_inj schema t1 t2 h1 h2
    (intercalate_inj ":" ':' rfl _ _
      ((keyParts_length schema t1 h1).trans (keyParts_length schema t2 h2).symm)
      (keyParts_no_colon schema t1 hc1) (keyParts_no_colon schema t2 hc2) hk)

theorem create_literal_plain (nv : NValue) (r : Rand) (lit : String) (r1 : Rand)
    (h : nv.Create r = .ok (lit, r1)) : ∀ c ∈ lit.data, plainChar c = true := by
  by_cases hwf : nv.WellFormed
  · obtain ⟨l, r2, hc, hp, -, -⟩ := nvalue_create_ok nv hwf r
    rw [hc] at h
    simp only [Except.ok.injEq, Prod.mk.injEq] at h
    rw [← h.1]
    exact hp
  · rw [nvalue_create_error nv hwf r] at h
    exact absurd h (by simp)

theorem createTuple_plain (schema : List NValue) (r : Rand) (t : List String) (r1 : Rand)
    (h : createTuple schema r = .ok (t, r1)) :
    ∀ lit ∈ t, ∀ c ∈ lit.data, plainChar c = true := by
  obtain ⟨hlen, hlit⟩ := createTuple_literals schema r t r1 h
  intro lit hl
  obtain ⟨i, hi, rfl⟩ := List.mem_iff_getElem.mp hl
  obtain ⟨ra, rb, hc⟩ := hlit i (by omega) hi
  exact create_literal_plain _ ra _ rb hc

theorem insertLoop_valueLists_nodup (schema : List NValue) (r : Rand) (m : TupleMap)
    (r1 : Rand) (h : insertLoop schema 10 [] r = .ok (m, r1)) :
    (m.map Prod.snd).Nodup ∧ (valueLists m).Nodup := by
  obtain ⟨cs, -, -, hnodup, -⟩ := insertLoop_spec schema r m r1 h
  have hm : m.Nodup := List.Nodup.of_map _ hnodup
  have hinj : ∀ e1 ∈ m, ∀ e2 ∈ m, e1.2 = e2.2 → e1 = e2 := by
    intro e1 h1 e2 h2 heq
    by_contra hne
    exact insertLoop_tuples_distinct schema r m r1 h e1 e2 h1 h2 hne heq
  refine ⟨List.Nodup.map_on hinj hm, ?_⟩
  unfold valueLists
  refine List.Nodup.map_on ?_ hm
  intro e1 h1 e2 h2 heq
  apply hinj e1 h1 e2 h2
  obtain ⟨-, ra, rb, hc1⟩ := insertLoop_entry schema r m r1 h e1 h1
  obtain ⟨-, rc, rd, hc2⟩ := insertLoop_entry schema r m r1 h e2 h2
  have hl1 := (createTuple_literals schema ra e1.2 rb hc1).1
  have hl2 := (createTuple_literals schema rc e2.2 rd hc2).1
  exact intercalate_inj "," ',' rfl e1.2 e2.2 (hl1.trans hl2.symm)
    (fun s hs hmem => (plainChar_ne _ (createTuple_plain schema ra e1.2 rb hc1 s hs _ hmem)).2.2 rfl)
    (fun s hs hmem => (plainChar_ne _ (createTuple_plain schema rc e2.2 rd hc2 s hs _ hmem)).2.2 rfl)
    heq

/-- C17: for a fixed schema `tupleKey` is injective on the tuples of the schema's
arity whose literals contain no `:`, which holds of every literal a value type
creates.  The tuples retained in a block are pairwise distinct and no two
`is` lines of the block carry the same value list.  Without the condition on
`:` injectivity fails. -/
theorem tupleKey_injective_without_colon :
    (∀ (schema : List NValue) (t1 t2 : List String),
        t1.length = schema.length → t2.length = schema.length →
        (∀ lit ∈ t1, ':' ∉ lit.data) → (∀ lit ∈ t2, ':' ∉ lit.data) →
        tupleKey schema t1 = tupleKey schema t2 → t1 = t2)
      ∧ (∀ (nv : NValue) (r : Rand) (lit : String) (r1 : Rand),
          nv.Create r = .ok (lit, r1) → ':' ∉ lit.data)
      ∧ (∀ (schema : List NValue) (order : Nat → TupleMap → TupleMap) (r : Rand)
          (m : TupleMap) (r1 : Rand), (∀ k t, (order k t).Perm t) →
          insertLoop schema 10 [] r = .ok (m, r1) →
          (m.map Prod.snd).Nodup ∧ (valueLists (order 0 m)).Nodup)
      ∧ ∃ (schema : List NValue) (t1 t2 : List String),
          t1.length = schema.length ∧ t2.length = schema.length
            ∧ tupleKey schema t1 = tupleKey schema t2 ∧ t1 ≠ t2 := by
  refine ⟨?_, ?_, ?_, ?_⟩
  · intro schema t1 t2 h1 h2 hc1 hc2 hk
    rw [tupleKey_eq_keyOf schema t1 h1, tupleKey_eq_keyOf schema t2 h2] at hk
    exact keyOf_inj schema t1 t2 h1 h2 hc1 hc2 (Except.ok.inj hk)
  · intro nv r lit r1 h hmem
    exact plainChar_ne_colon _ (create_literal_plain nv r lit r1 h _ hmem) rfl
  · intro schema order r m r1 hord h
    obtain ⟨h1, h2⟩ := insertLoop_valueLists_nodup schema r m r1 h
    exact ⟨h1, ((valueLists_perm _ _ (hord 0 m)).nodup_iff).mpr h2⟩
  · exact ⟨[.IntValue, .IntValue], ["a:int:b", "c"], ["a", "b:int:c"], rfl, rfl, by decide,
      by decide⟩

/-- Instance of C17: two tuples of an `sint`/`str4` schema with the same key. -/
theorem tupleKey_injective_without_colon_witness :
    ["5", "abcd"].length = [NValue.SintValue, .StrValue 4].length
      ∧ (∀ lit ∈ ["5", "abcd"], ':' ∉ lit.data)
      ∧ ∀ t2 : List String, t2.length = [NValue.SintValue, .StrValue 4].length →
          (∀ lit ∈ t2, ':' ∉ lit.data) →
          tupleKey [.SintValue, .StrValue 4] ["5", "abcd"]
            = tupleKey [.SintValue, .StrValue 4] t2 → ["5", "abcd"] = t2 :=
  ⟨rfl, by decide, fun t2 h2 hc2 hk =>
    tupleKey_injective_without_colon.1 [.SintValue, .StrValue 4] ["5", "abcd"] t2 rfl h2
      (by decide) hc2 hk⟩

/-! ## Decimal literals are not canonical (C19) -/

theorem decimalValue_example : decimalValue "1.5" = decimalValue "1.50" := by
  have h1 : decimalValue "1.5" = (1 : ℚ) + (5 : ℚ) / (10 : ℚ) ^ 1 := by
    simp [decimalValue, digitsValue]
  have h2 : decimalValue "1.50" = (1 : ℚ) + (50 : ℚ) / (10 : ℚ) ^ 2 := by
    simp [decimalValue, digitsValue]
  rw [h1, h2]
  norm_num

theorem split_at_last (c : Char) (a a2 b b2 : List Char) (hb : c ∉ b) (hb2 : c ∉ b2)
    (h : a ++ c :: b = a2 ++ c :: b2) : b = b2 := by
  have hr := congrArg List.reverse h
  simp only [List.reverse_append, List.reverse_cons, List.append_assoc,
    List.singleton_append] at hr
  have := (split_at_first c b.reverse b2.reverse a.reverse a2.reverse
    (by simpa using hb) (by simpa using hb2) hr).1
  exact List.reverse_injective this

theorem repr_ne_zero_five (f : Nat) : (toString f).data ≠ ['0', '5'] := by
  intro h
  rcases Nat.eq_zero_or_pos f with h0 | h0
  · rw [h0] at h
    exact absurd h (by decide)
  · obtain ⟨d, ds, he, -, hd0, -⟩ := repr_head f h0
    rw [he] at h
    simp only [List.cons.injEq] at h
    exact hd0 h.1

theorem decValue_fraction (r : Rand) :
    ∃ (v : Int) (f : Nat), (DecValue.Create r).1 = toString v ++ "." ++ toString f
      ∧ f ≤ 99999998 ∧ CanonicalDecimal (toString f).data := by
  have hf : r.seq (r.pos + 2) % 99999999 < 99999999 := Nat.mod_lt _ (by decide)
  refine ⟨wrapInt ((r.seq r.pos % 2 ^ 63 : Nat)
      * (if r.seq (r.pos + 1) % 2 ^ 63 % 2 = 0 then 1 else -1)),
    r.seq (r.pos + 2) % 99999999, ?_, by omega,
    int_repr_canonical ((r.seq (r.pos + 2) % 99999999 : Nat) : Int)⟩
  rw [decValue_create_eq]
  rfl

theorem decValue_no_padded_fraction (r : Rand) (ip : String) :
    (DecValue.Create r).1 ≠ ip ++ ".05" := by
  obtain ⟨v, f, hlit, -, -⟩ := decValue_fraction r
  intro h
  rw [hlit] at h
  have hd := congrArg String.data h
  simp only [String.data_append] at hd
  have hd2 : (toString v).data ++ '.' :: (toString f).data = ip.data ++ '.' :: ['0', '5'] := by
    simpa using hd
  have hdig : '.' ∉ (toString f).data := fun hm =>
    absurd (repr_isDigit f _ hm) (by decide)
  exact repr_ne_zero_five f (split_at_last '.' _ _ _ _ hdig (by decide) hd2)

set_option maxRecDepth 100000 in
theorem decimal_block_eval :
    insertLoop [.DecValue] 10 [] ⟨decimalDraws, 0⟩
      = .ok ([("dec:1.5", ["1.5"]), ("dec:1.50", ["1.50"])], ⟨decimalDraws, 30⟩) := rfl

theorem decimal_literals_eval :
    (DecValue.Create ⟨decimalDraws, 0⟩).1 = "1.5"
      ∧ (DecValue.Create ⟨decimalDraws, 3⟩).1 = "1.50" := ⟨rfl, rfl⟩

/-- C19: decimal literals are not canonical.  Integer part 1 with the fraction
draws 5 and 50 gives the literals `1.5` and `1.50`: they differ as strings, have
different canonical keys, are both retained by the insertion loop, and denote
the same rational number.  The fraction is always the plain decimal of an
integer in `[0, 99999998]`, without zero padding, so no literal ends in
`.05`. -/
theorem decimal_literals_not_canonical :
    (∃ ra rb : Rand, (DecValue.Create ra).1 = "1.5" ∧ (DecValue.Create rb).1 = "1.50")
      ∧ "1.5" ≠ "1.50"
      ∧ tupleKey [.DecValue] ["1.5"] ≠ tupleKey [.DecValue] ["1.50"]
      ∧ decimalValue "1.5" = decimalValue "1.50"
      ∧ (∃ (r : Rand) (m : TupleMap) (r1 : Rand),
          insertLoop [.DecValue] 10 [] r = .ok (m, r1)
            ∧ ["1.5"] ∈ m.map Prod.snd ∧ ["1.50"] ∈ m.map Prod.snd)
      ∧ (∀ r : Rand, ∃ (v : Int) (f : Nat),
          (DecValue.Create r).1 = toString v ++ "." ++ toString f
            ∧ f ≤ 99999998 ∧ CanonicalDecimal (toString f).data)
      ∧ ∀ (r : Rand) (ip : String), (DecValue.Create r).1 ≠ ip ++ ".05" :=
  ⟨⟨_, _, decimal_literals_eval⟩, by decide, by decide, decimalValue_example,
    ⟨_, _, _, decimal_block_eval, by decide, by decide⟩, decValue_fraction,
    decValue_no_padded_fraction⟩

/-! ## Blocks on generated schemas (C1, C2) -/

theorem voltIdxTypes_percent_free : ∀ t ∈ voltIdxTypes, ∀ c ∈ t.data, c ≠ '%' := by decide

theorem voltIdxIntTypes_percent_free : ∀ t ∈ voltIdxIntTypes, ∀ c ∈ t.data, c ≠ '%' := by
  decide

/-- What `createSchema` returns: a non-empty schema of well-formed value types,
with its tokens, whose header list is printed as a comma-separated line. -/
theorem createSchema_generated (r : Rand) :
    ∃ schema abbrevs r1, createSchema r = .ok ((schema, abbrevs), r1)
      ∧ schema ≠ [] ∧ (∀ nv ∈ schema, nv.WellFormed)
      ∧ printSliceAsList abbrevs = ",".intercalate abbrevs ++ "\n" := by
  obtain ⟨s, a, hrun, hlen, hmap, hmem, hwf⟩ := createSchema_spec r
  have hne : s ≠ [] := fun h => by rw [h] at hlen; simp at hlen
  have hane : a ≠ [] := fun h => by rw [h] at hmap; exact hne (List.map_eq_nil_iff.mp hmap)
  exact ⟨s, a, _, hrun, hne, hwf,
    printSliceAsList_eq a hane (fun t ht => voltIdxTypes_percent_free t (hmem t ht))⟩

/-- What `createIntsOnlySchema` returns: a non-empty schema of well-formed value
types, with its tokens, whose header list is printed as a comma-separated
line. -/
theorem createIntsOnlySchema_generated (r : Rand) :
    ∃ schema abbrevs r1, createIntsOnlySchema r = .ok ((schema, abbrevs), r1)
      ∧ schema ≠ [] ∧ (∀ nv ∈ schema, nv.WellFormed)
      ∧ printSliceAsList abbrevs = ",".intercalate abbrevs ++ "\n" := by
  obtain ⟨s, a, hrun, hlen, hmap, hmem, hwf⟩ := createIntsOnlySchema_spec r
  have hne : s ≠ [] := fun h => by rw [h] at hlen; simp at hlen
  have hane : a ≠ [] := fun h => by rw [h] at hmap; exact hne (List.map_eq_nil_iff.mp hmap)
  exact ⟨s, a, _, hrun, hne, hwf,
    printSliceAsList_eq a hane (fun t ht => voltIdxIntTypes_percent_free t (hmem t ht))⟩

/-- C1: for every schema built by `createSchema` or `createIntsOnlySchema`, every
sequence of draws and every order in which the six `range` statements visit the
map, the text written by `simpleUniqueGenerator`, called as by its two callers
on a fresh map, is six groups of command lines in the order `is`, `ls`, `if`,
`ds`, `df`, `lf`, followed by the single line `exec`, and nothing else: no line
of a later group comes before a line of an earlier group, and no value list
holds a newline.  The text `generateUniqueGenericTree` and
`generateUniqueIntsHash` write is the header line followed by such a body. -/
theorem simpleUniqueGenerator_group_order (order : Nat → TupleMap → TupleMap)
    (hord : ∀ k t, (order k t).Perm t) (r0 r : Rand) :
    (∃ schema abbrevs r1, createSchema r0 = .ok ((schema, abbrevs), r1)
        ∧ ∃ out m r2, simpleUniqueGenerator [] schema order r = .ok (out, m, r2)
          ∧ out = renderLines (blockLines (valueLists (order 0 m))
              (valueLists (order 1 m)) (valueLists (order 2 m)) (valueLists (order 3 m))
              (valueLists (order 4 m)) (valueLists (order 5 m)))
          ∧ (∀ k, ∀ v ∈ valueLists (order k m), '\n' ∉ v.data)
          ∧ BlockShape out)
      ∧ (∃ schema abbrevs r1, createIntsOnlySchema r0 = .ok ((schema, abbrevs), r1)
        ∧ ∃ out m r2, simpleUniqueGenerator [] schema order r = .ok (out, m, r2)
          ∧ out = renderLines (blockLines (valueLists (order 0 m))
              (valueLists (order 1 m)) (valueLists (order 2 m)) (valueLists (order 3 m))
              (valueLists (order 4 m)) (valueLists (order 5 m)))
          ∧ (∀ k, ∀ v ∈ valueLists (order k m), '\n' ∉ v.data)
          ∧ BlockShape out)
      ∧ (∀ testrun : Int, ∃ abbrevs out r2,
          generateUniqueGenericTree testrun order r0
              = .ok ("begin TestUniqueGenericTree_" ++ toString testrun
                  ++ " UniqueGenericTree " ++ (",".intercalate abbrevs ++ "\n") ++ out, r2)
            ∧ BlockShape out)
      ∧ ∀ testrun : Int, ∃ abbrevs out r2,
          generateUniqueIntsHash testrun order r0
              = .ok ("begin TestUniqueIntsHash_" ++ toString testrun
                  ++ " UniqueIntsHash " ++ (",".intercalate abbrevs ++ "\n") ++ out, r2)
            ∧ BlockShape out := by
  refine ⟨?_, ?_, ?_, ?_⟩
  · obtain ⟨s, a, r1, hrun, hne, hwf, -⟩ := createSchema_generated r0
    exact ⟨s, a, r1, hrun, block_shape_of_wellFormed s hne hwf order hord r⟩
  · obtain ⟨s, a, r1, hrun, hne, hwf, -⟩ := createIntsOnlySchema_generated r0
    exact ⟨s, a, r1, hrun, block_shape_of_wellFormed s hne hwf order hord r⟩
  · intro testrun
    obtain ⟨s, a, r1, hrun, hne, hwf, hhead⟩ := createSchema_generated r0
    obtain ⟨out, m, r2, hgen, -, -, hshape⟩ := block_shape_of_wellFormed s hne hwf order hord r1
    refine ⟨a, out, r2, ?_, hshape⟩
    unfold generateUniqueGenericTree
    rw [hrun]
    simp only [hgen, hhead]
  · intro testrun
    obtain ⟨s, a, r1, hrun, hne, hwf, hhead⟩ := createIntsOnlySchema_generated r0
    obtain ⟨out, m, r2, hgen, -, -, hshape⟩ := block_shape_of_wellFormed s hne hwf order hord r1
    refine ⟨a, out, r2, ?_, hshape⟩
    unfold generateUniqueIntsHash
    rw [hrun]
    simp only [hgen, hhead]

/-- Instance of C1: the constant streams of draws 6 (schema) and 7 (tuples),
with the map visited in reverse storage order. -/
theorem simpleUniqueGenerator_group_order_witness :
    (∀ (k : Nat) (t : TupleMap), ((fun (_ : Nat) (t : TupleMap) => t.reverse) k t).Perm t)
      ∧ ∃ schema abbrevs r1,
          createIntsOnlySchema ⟨fun _ => 6, 0⟩ = .ok ((schema, abbrevs), r1)
        ∧ ∃ out m r2,
            simpleUniqueGenerator [] schema (fun _ t => t.reverse) ⟨fun _ => 7, 0⟩
              = .ok (out, m, r2)
          ∧ out = renderLines (blockLines (valueLists m.reverse) (valueLists m.reverse)
              (valueLists m.reverse) (valueLists m.reverse) (valueLists m.reverse)
              (valueLists m.reverse))
          ∧ (∀ _k : Nat, ∀ v ∈ valueLists m.reverse, '\n' ∉ v.data)
          ∧ BlockShape out :=
  ⟨fun _ t => List.reverse_perm t,
    (simpleUniqueGenerator_group_order (fun _ t => t.reverse)
      (fun _ t => List.reverse_perm t) ⟨fun _ => 6, 0⟩ ⟨fun _ => 7, 0⟩).2.1⟩

/-- C2: for every schema built by `createSchema` or `createIntsOnlySchema` and
every sequence of draws, each of the six command groups written by
`simpleUniqueGenerator` (called as by its callers on a fresh map) lists exactly
the retained tuples, each once, so it has `k` lines, `k` being the number of
distinct canonical keys among the 10 candidates; the body has `6k+1` lines,
`exec` included. -/
theorem simpleUniqueGenerator_group_sizes (order : Nat → TupleMap → TupleMap)
    (hord : ∀ k t, (order k t).Perm t) (r0 r : Rand) :
    (∃ schema abbrevs r1, createSchema r0 = .ok ((schema, abbrevs), r1)
        ∧ ∃ cands out m r2, candidateTuples schema 10 r = .ok (cands, r2)
          ∧ simpleUniqueGenerator [] schema order r = .ok (out, m, r2)
          ∧ m.length = (cands.map (tupleKey schema)).dedup.length
          ∧ (m.map Prod.fst).Nodup
          ∧ out = renderLines (blockLines (valueLists (order 0 m))
              (valueLists (order 1 m)) (valueLists (order 2 m)) (valueLists (order 3 m))
              (valueLists (order 4 m)) (valueLists (order 5 m)))
          ∧ (∀ k, (valueLists (order k m)).Perm (valueLists m)
              ∧ (valueLists (order k m)).length
                  = (cands.map (tupleKey schema)).dedup.length)
          ∧ lineCount out = 6 * (cands.map (tupleKey schema)).dedup.length + 1)
      ∧ ∃ schema abbrevs r1, createIntsOnlySchema r0 = .ok ((schema, abbrevs), r1)
        ∧ ∃ cands out m r2, candidateTuples schema 10 r = .ok (cands, r2)
          ∧ simpleUniqueGenerator [] schema order r = .ok (out, m, r2)
          ∧ m.length = (cands.map (tupleKey schema)).dedup.length
          ∧ (m.map Prod.fst).Nodup
          ∧ out = renderLines (blockLines (valueLists (order 0 m))
              (valueLists (order 1 m)) (valueLists (order 2 m)) (valueLists (order 3 m))
              (valueLists (order 4 m)) (valueLists (order 5 m)))
          ∧ (∀ k, (valueLists (order k m)).Perm (valueLists m)
              ∧ (valueLists (order k m)).length
                  = (cands.map (tupleKey schema)).dedup.length)
          ∧ lineCount out = 6 * (cands.map (tupleKey schema)).dedup.length + 1 := by
  constructor
  · obtain ⟨s, a, r1, hrun, hne, hwf, -⟩ := createSchema_generated r0
    exact ⟨s, a, r1, hrun, group_counts_of_wellFormed s hne hwf order hord r⟩
  · obtain ⟨s, a, r1, hrun, hne, hwf, -⟩ := createIntsOnlySchema_generated r0
    exact ⟨s, a, r1, hrun, group_counts_of_wellFormed s hne hwf order hord r⟩

/-- Instance of C2: the constant streams of draws 6 (schema) and 7 (tuples),
with the map visited in reverse storage order. -/
theorem simpleUniqueGenerator_group_sizes_witness :
    (∀ (k : Nat) (t : TupleMap), ((fun (_ : Nat) (t : TupleMap) => t.reverse) k t).Perm t)
      ∧ ∃ schema abbrevs r1,
          createIntsOnlySchema ⟨fun _ => 6, 0⟩ = .ok ((schema, abbrevs), r1)
        ∧ ∃ cands out m r2,
            candidateTuples schema 10 ⟨fun _ => 7, 0⟩ = .ok (cands, r2)
          ∧ simpleUniqueGenerator [] schema (fun _ t => t.reverse) ⟨fun _ => 7, 0⟩
              = .ok (out, m, r2)
          ∧ m.length = (cands.map (tupleKey schema)).dedup.length
          ∧ (m.map Prod.fst).Nodup
          ∧ out = renderLines (blockLines (valueLists m.reverse) (valueLists m.reverse)
              (valueLists m.reverse) (valueLists m.reverse) (valueLists m.reverse)
              (valueLists m.reverse))
          ∧ (∀ _k : Nat, (valueLists m.reverse).Perm (valueLists m)
              ∧ (valueLists m.reverse).length
                  = (cands.map (tupleKey schema)).dedup.length)
          ∧ lineCount out = 6 * (cands.map (tupleKey schema)).dedup.length + 1 :=
  ⟨fun _ t => List.reverse_perm t,
    (simpleUniqueGenerator_group_sizes (fun _ t => t.reverse)
      (fun _ t => List.reverse_perm t) ⟨fun _ => 6, 0⟩ ⟨fun _ => 7, 0⟩).2⟩

end IndexScriptGen
